import Mathlib

/-!
Verification of the graph core of `svg_network_graph.ts`.

The development shallowly embeds the source:

* `StoreNode` embeds `class GraphNode` (coordinates and weights are modelled
  as exact rationals; every JavaScript float is a rational, and none of the
  graph-store or analyzer operations perform arithmetic on coordinates).
* `Graph` embeds the fields of `class Graph` that the verified operations
  touch: the ordered node list, the id list, the id-to-node dictionary
  (a JavaScript object with string keys, modelled as an insertion-ordered
  association list), and the ordered edge list.  Edges are stored in the
  source as pairs of references to `GraphNode` objects; since the store
  enforces unique ids and every stored edge endpoint is a stored node,
  reference equality between stored nodes coincides with id equality, and
  edges are modelled as pairs of node ids.
* Thrown strings are modelled with `Except String`; `console.error`
  warnings are modelled as an `Option String` result component.
-/

set_option maxHeartbeats 1000000

namespace NetworkGraph

/-- Embeds `class GraphNode`.  The transient displacement vector `disp` is
only used by the layout engine, which is modelled separately over a
NaN-aware number type; the store model omits it because no store or
analyzer operation reads it. -/
structure StoreNode where
  id : String
  x : ℚ
  y : ℚ
  strokeColor : String
  fillColor : String
  label : String
  displayLabel : Bool
  weight : ℚ
deriving DecidableEq

/-- Embeds the graph-store fields of `class Graph`.  `width` and `height`
come from the canvas client size; `primaryDark` and `primaryMid` are the
two palette entries used as node colour defaults (the remaining palette
fields are never read by the modelled operations). -/
structure Graph where
  nodes : List StoreNode
  nodeIds : List String
  nodeDictionary : List (String × StoreNode)
  edges : List (String × String)
  width : ℚ
  height : ℚ
  primaryDark : String
  primaryMid : String
deriving DecidableEq

/-- Embeds `Graph.addNode`.  The two `Math.random()` draws used for the
coordinate defaults are passed explicitly as `rx` and `ry`.  In the
duplicate branch the source throws before performing any mutation, so the
store component of the result is the unchanged store. -/
def Graph.addNode (g : Graph) (id : String) (x? y? : Option ℚ)
    (strokeColor? fillColor? label? : Option String) (displayLabel? : Option Bool)
    (rx ry : ℚ) : Graph × Except String StoreNode :=
  if id ∉ g.nodeIds then
    let newNode : StoreNode :=
      { id := id
        x := match x? with
             | none => rx * (g.width - 20) + 10
             | some v => v
        y := match y? with
             | none => ry * (g.height - 20) + 10
             | some v => v
        strokeColor := strokeColor?.getD g.primaryDark
        fillColor := fillColor?.getD g.primaryMid
        label := label?.getD ""
        displayLabel := displayLabel?.getD false
        weight := 1 }
    ({ g with
        nodes := g.nodes ++ [newNode]
        nodeIds := g.nodeIds ++ [id]
        nodeDictionary := g.nodeDictionary ++ [(id, newNode)] },
     Except.ok newNode)
  else
    (g, Except.error "A node already exists with that id.")

/-- Embeds `Graph.addEdge`.  The source reports a missing endpoint with
`console.error` and adds nothing; the warning is modelled as the
`Option String` component. -/
def Graph.addEdge (g : Graph) (source target : String) : Graph × Option String :=
  if source ∈ g.nodeIds then
    if target ∈ g.nodeIds then
      ({ g with edges := g.edges ++ [(source, target)] }, none)
    else
      (g, some ("Graph does not include a node with id " ++ target))
  else
    (g, some ("Graph does not include a node with id " ++ source))

/-- Embeds `Graph.containsNode`.  In the source the second argument is the
result of a dictionary lookup and is compared against the edge endpoints
with reference equality; a failed lookup yields `undefined`, which matches
no stored node.  Under the unique-id store invariant this is id equality,
with the lookup result modelled as an optional id. -/
def Graph.containsNode (edge : String × String) (node : Option String) : Bool :=
  (some edge.1 == node) || (some edge.2 == node)

/-- Embeds `Graph.degree`: look the id up in the dictionary and count the
edges whose source or target is the resulting node. -/
def Graph.degree (g : Graph) (nodeId : String) : ℕ :=
  let node := (g.nodeDictionary.lookup nodeId).map StoreNode.id
  g.edges.foldl (fun c e => if Graph.containsNode e node then c + 1 else c) 0

/-- The store invariants that `construct`, `addNode` and `addEdge`
maintain: every dictionary hit returns the node carrying the looked-up id,
an id is listed exactly when the dictionary has it, and stored edges have
stored endpoints. -/
structure Graph.WF (g : Graph) : Prop where
  lookup_id : ∀ k n, g.nodeDictionary.lookup k = some n → n.id = k
  mem_iff_lookup : ∀ k, k ∈ g.nodeIds ↔ (g.nodeDictionary.lookup k).isSome
  edges_mem : ∀ e ∈ g.edges, e.1 ∈ g.nodeIds ∧ e.2 ∈ g.nodeIds

/-- Decidable sufficient condition for `Graph.WF`, used to certify concrete
stores. -/
def Graph.WFb (g : Graph) : Bool :=
  g.nodeDictionary.all (fun kv => kv.2.id == kv.1) &&
  g.nodeIds.all (fun k => (g.nodeDictionary.lookup k).isSome) &&
  g.nodeDictionary.all (fun kv => kv.1 ∈ g.nodeIds) &&
  g.edges.all (fun e => e.1 ∈ g.nodeIds && e.2 ∈ g.nodeIds)

lemma lookup_mem {α β : Type} [BEq α] [LawfulBEq α] {l : List (α × β)} {k : α} {v : β}
    (h : l.lookup k = some v) : (k, v) ∈ l := by
  induction l with
  | nil => simp [List.lookup] at h
  | cons hd tl ih =>
    rw [List.lookup] at h
    by_cases hk : k == hd.1
    · simp only [hk, if_pos] at h
      have hkeq : k = hd.1 := eq_of_beq hk
      have hveq : hd.2 = v := by simpa using h
      have : (k, v) = hd := by
        cases hd
        simp_all
      rw [this]
      exact List.mem_cons_self _ _
    · simp only [hk] at h
      exact List.mem_cons_of_mem _ (ih (by simpa using h))

lemma WF_of_WFb (g : Graph) (h : g.WFb = true) : g.WF := by
  rw [Graph.WFb, Bool.and_eq_true, Bool.and_eq_true, Bool.and_eq_true] at h
  obtain ⟨⟨⟨h1, h2⟩, h3⟩, h4⟩ := h
  constructor
  · intro k n hkn
    have hmem : (k, n) ∈ g.nodeDictionary := lookup_mem hkn
    have := List.all_eq_true.mp h1 _ hmem
    exact eq_of_beq this
  · intro k
    constructor
    · intro hk
      exact List.all_eq_true.mp h2 k hk
    · intro hk
      obtain ⟨n, hn⟩ := Option.isSome_iff_exists.mp hk
      have hmem : (k, n) ∈ g.nodeDictionary := lookup_mem hn
      have := List.all_eq_true.mp h3 _ hmem
      exact of_decide_eq_true this
  · intro e he
    have := List.all_eq_true.mp h4 _ he
    rw [Bool.and_eq_true] at this
    exact ⟨of_decide_eq_true this.1, of_decide_eq_true this.2⟩

/-! Concrete stores used for witnesses and counterexamples. -/

/-- A sample stored node with id `a`. -/
def nodeA : StoreNode := ⟨"a", 0, 0, "", "", "", false, 1⟩

/-- A sample stored node with id `b`. -/
def nodeB : StoreNode := ⟨"b", 0, 0, "", "", "", false, 1⟩

/-- A two-node store with an edge from `a` to `b` and a self-loop at `a`. -/
def sampleGraphAB : Graph :=
  ⟨[nodeA, nodeB], ["a", "b"], [("a", nodeA), ("b", nodeB)],
   [("a", "b"), ("a", "a")], 100, 100, "", ""⟩

/-- A one-node store whose only edge is a self-loop at `a`. -/
def selfLoopGraph : Graph :=
  ⟨[nodeA], ["a"], [("a", nodeA)], [("a", "a")], 100, 100, "", ""⟩

/-! C6: `addNode` with a duplicate id throws and leaves the store unchanged. -/

/-- C6: for every store, calling `addNode` with an id already present throws
`A node already exists with that id.` and leaves the store entirely
unchanged: the node sequence, the id list, the id-to-node mapping and the
edge sequence are all exactly as before the call. -/
theorem addNode_duplicate_unchanged (g : Graph) (id : String) (x? y? : Option ℚ)
    (sc? fc? lb? : Option String) (dl? : Option Bool) (rx ry : ℚ)
    (h : id ∈ g.nodeIds) :
    (g.addNode id x? y? sc? fc? lb? dl? rx ry).1 = g ∧
    (g.addNode id x? y? sc? fc? lb? dl? rx ry).1.nodes = g.nodes ∧
    (g.addNode id x? y? sc? fc? lb? dl? rx ry).1.nodeIds = g.nodeIds ∧
    (g.addNode id x? y? sc? fc? lb? dl? rx ry).1.nodeDictionary = g.nodeDictionary ∧
    (g.addNode id x? y? sc? fc? lb? dl? rx ry).1.edges = g.edges ∧
    (g.addNode id x? y? sc? fc? lb? dl? rx ry).2 =
      Except.error "A node already exists with that id." := by
  have hmem : ¬ id ∉ g.nodeIds := by simpa using h
  simp [Graph.addNode, hmem]

/-- Witness for C6 at a concrete store: `a` is already present in
`sampleGraphAB`, and adding it again returns the unchanged store together
with the duplicate-id error. -/
theorem addNode_duplicate_unchanged_witness :
    "a" ∈ sampleGraphAB.nodeIds ∧
    ((sampleGraphAB.addNode "a" none none none none none none 0 0).1 = sampleGraphAB ∧
     (sampleGraphAB.addNode "a" none none none none none none 0 0).1.nodes = sampleGraphAB.nodes ∧
     (sampleGraphAB.addNode "a" none none none none none none 0 0).1.nodeIds = sampleGraphAB.nodeIds ∧
     (sampleGraphAB.addNode "a" none none none none none none 0 0).1.nodeDictionary =
       sampleGraphAB.nodeDictionary ∧
     (sampleGraphAB.addNode "a" none none none none none none 0 0).1.edges = sampleGraphAB.edges ∧
     (sampleGraphAB.addNode "a" none none none none none none 0 0).2 =
       Except.error "A node already exists with that id.") :=
  ⟨by decide, addNode_duplicate_unchanged sampleGraphAB "a" none none none none none none 0 0
    (by decide)⟩

/-! C7: `addEdge` with a missing endpoint warns and leaves the store unchanged. -/

/-- C7: whenever the source id or the target id of an `addEdge` call is
absent from the store, no edge is added, the store is entirely unchanged,
and the condition is reported as a non-fatal warning message rather than
thrown. -/
theorem addEdge_missing_endpoint_unchanged (g : Graph) (s t : String)
    (h : s ∉ g.nodeIds ∨ t ∉ g.nodeIds) :
    (g.addEdge s t).1 = g ∧ (g.addEdge s t).1.edges = g.edges ∧
    ((g.addEdge s t).2).isSome = true := by
  by_cases hs : s ∈ g.nodeIds
  · have ht : t ∉ g.nodeIds := by
      rcases h with h | h
      · exact absurd hs h
      · exact h
    simp [Graph.addEdge, hs, ht]
  · simp [Graph.addEdge, hs]

/-- Witness for C7 at a concrete store: `zz` is absent from
`sampleGraphAB`, and `addEdge a zz` leaves the store unchanged while
reporting a warning. -/
theorem addEdge_missing_endpoint_unchanged_witness :
    ("a" ∉ sampleGraphAB.nodeIds ∨ "zz" ∉ sampleGraphAB.nodeIds) ∧
    ((sampleGraphAB.addEdge "a" "zz").1 = sampleGraphAB ∧
     (sampleGraphAB.addEdge "a" "zz").1.edges = sampleGraphAB.edges ∧
     ((sampleGraphAB.addEdge "a" "zz").2).isSome = true) :=
  ⟨by decide, addEdge_missing_endpoint_unchanged sampleGraphAB "a" "zz" (by decide)⟩

/-! Counting lemmas for `degree`. -/

lemma degree_foldl (es : List (String × String)) (node : Option String) (a : ℕ) :
    es.foldl (fun c e => if Graph.containsNode e node then c + 1 else c) a =
      a + es.countP (fun e => Graph.containsNode e node) := by
  induction es generalizing a with
  | nil => simp
  | cons e es ih =>
    rw [List.foldl_cons, List.countP_cons, ih]
    by_cases hc : Graph.containsNode e node
    · simp [hc]
      omega
    · simp [hc]

lemma degree_eq_countP (g : Graph) (nodeId : String) :
    g.degree nodeId =
      g.edges.countP (fun e =>
        Graph.containsNode e ((g.nodeDictionary.lookup nodeId).map StoreNode.id)) := by
  rw [Graph.degree, degree_foldl]
  omega

/-! C3: a self-loop contributes 1 to `degree`, not 2. -/

/-- Counterexample to C3 as stated: in a store whose single edge is a
self-loop at `a`, `degree a` returns 1, not the 2 the claim predicts for a
self-loop. -/
theorem degree_selfloop_counterexample :
    selfLoopGraph.degree "a" = 1 ∧ selfLoopGraph.degree "a" ≠ 2 := by
  constructor
  · decide
  · decide

/-- C3 amended: for every well-formed store and stored id, `degree` counts
the edges in which the node appears as source or target, where each edge is
tested once with a single disjunction, so an edge whose source and target
are both the node (a self-loop) contributes exactly 1 to the count, not 2:
appending a self-loop at the id raises the degree by exactly one. -/
theorem degree_counts_incident_selfloop_once (g : Graph) (h_wf : g.WF) (nodeId : String)
    (h : nodeId ∈ g.nodeIds) :
    g.degree nodeId = g.edges.countP (fun e => e.1 == nodeId || e.2 == nodeId) ∧
    Graph.degree { g with edges := g.edges ++ [(nodeId, nodeId)] } nodeId =
      g.degree nodeId + 1 := by
  obtain ⟨n, hn⟩ := Option.isSome_iff_exists.mp ((h_wf.mem_iff_lookup nodeId).mp h)
  have hid : n.id = nodeId := h_wf.lookup_id nodeId n hn
  have hcount : ∀ es : List (String × String),
      es.countP (fun e =>
        Graph.containsNode e ((g.nodeDictionary.lookup nodeId).map StoreNode.id)) =
      es.countP (fun e => e.1 == nodeId || e.2 == nodeId) := by
    intro es
    apply List.countP_congr
    intro e _
    rw [hn]
    simp [Graph.containsNode, hid]
  constructor
  · rw [degree_eq_countP, hcount]
  · rw [degree_eq_countP, degree_eq_countP]
    simp only [hcount]
    rw [List.countP_append]
    simp

/-- Witness for C3 amended at a concrete store: in `sampleGraphAB` the node
`a` is the source of the edge to `b` and both endpoints of the self-loop,
and its degree is 2; appending one more self-loop raises it to 3. -/
theorem degree_counts_incident_selfloop_once_witness :
    "a" ∈ sampleGraphAB.nodeIds ∧
    (sampleGraphAB.degree "a" =
       sampleGraphAB.edges.countP (fun e => e.1 == "a" || e.2 == "a") ∧
     Graph.degree { sampleGraphAB with
        edges := sampleGraphAB.edges ++ [("a", "a")] } "a" = sampleGraphAB.degree "a" + 1) :=
  ⟨by decide,
   degree_counts_incident_selfloop_once sampleGraphAB
     (WF_of_WFb sampleGraphAB (by decide)) "a" (by decide)⟩

/-! C10: `degree` on an absent id returns 0 without raising an error. -/

/-- C10: for every well-formed store, calling `degree` with an id that is
not present returns 0: the failed dictionary lookup yields a value that
matches no edge endpoint, so no edge is counted, and no error is raised
since the function is total. -/
theorem degree_absent_id_zero (g : Graph) (h_wf : g.WF) (nodeId : String)
    (h : nodeId ∉ g.nodeIds) : g.degree nodeId = 0 := by
  have hl : g.nodeDictionary.lookup nodeId = none := by
    cases hlk : g.nodeDictionary.lookup nodeId with
    | none => rfl
    | some n =>
      exact absurd ((h_wf.mem_iff_lookup nodeId).mpr (by rw [hlk]; rfl)) h
  rw [degree_eq_countP, hl]
  apply List.countP_eq_zero.mpr
  intro e _
  simp [Graph.containsNode]

/-- Witness for C10 at a concrete store: `zz` is absent from
`sampleGraphAB` and its degree is 0. -/
theorem degree_absent_id_zero_witness :
    "zz" ∉ sampleGraphAB.nodeIds ∧ sampleGraphAB.degree "zz" = 0 :=
  ⟨by decide,
   degree_absent_id_zero sampleGraphAB (WF_of_WFb sampleGraphAB (by decide)) "zz" (by decide)⟩

/-! Graph analyzer: breadth-first traversal.

The source expresses `breadthFirstSearch` and `connectedComponentMapBF` as
tail recursion over a mutable queue.  Both compute the same
`nextLevelNodes` list and run the same enqueue loop; the recursions
terminate because every enqueued node is an edge endpoint that is freshly
added to `covered`, so twice the number of uncovered edge endpoints plus
the queue length strictly decreases. -/

/-- The `nextLevelNodes` computation shared by `breadthFirstSearch` and
`connectedComponentMapBF`: targets of edges whose source is the current
node, followed by sources of edges whose target is the current node. -/
def nextLevel (edges : List (String × String)) (v : String) : List String :=
  (edges.filter (fun e => e.1 == v)).map Prod.snd ++
    (edges.filter (fun e => e.2 == v)).map Prod.fst

/-- The shared enqueue loop: push every node of `l` that is not yet
covered onto the queue at depth `depth + 1`, marking it covered. -/
def pushFresh (l : List String) (depth : ℕ) (q : List (String × ℕ))
    (cov : List String) : List (String × ℕ) × List String :=
  l.foldl (fun qc node =>
    if node ∈ qc.2 then qc
    else (qc.1 ++ [(node, depth + 1)], qc.2 ++ [node])) (q, cov)

/-- All edge endpoints; every node a traversal can enqueue lies in this
list. -/
def ends (edges : List (String × String)) : List String :=
  edges.map Prod.fst ++ edges.map Prod.snd

/-- Termination measure for the two traversals. -/
def bfsMeasure (edges : List (String × String)) (q : List (String × ℕ))
    (cov : List String) : ℕ :=
  2 * ((ends edges).toFinset \ cov.toFinset).card + q.length

lemma pushFresh_spec (l : List String) (depth : ℕ) :
    ∀ (q : List (String × ℕ)) (cov : List String),
      ∃ fresh : List String,
        pushFresh l depth q cov = (q ++ fresh.map (fun v => (v, depth + 1)), cov ++ fresh) ∧
        fresh.Nodup ∧ (∀ v ∈ fresh, v ∈ l ∧ v ∉ cov) ∧ (∀ v ∈ l, v ∈ cov ++ fresh) := by
  induction l with
  | nil =>
    intro q cov
    exact ⟨[], by simp [pushFresh], by simp, by simp, by simp⟩
  | cons v l ih =>
    intro q cov
    by_cases hv : v ∈ cov
    · obtain ⟨fresh, h1, h2, h3, h4⟩ := ih q cov
      refine ⟨fresh, ?_, h2, ?_, ?_⟩
      · rw [pushFresh, List.foldl_cons] at *
        simpa [hv] using h1
      · intro w hw
        exact ⟨List.mem_cons_of_mem _ (h3 w hw).1, (h3 w hw).2⟩
      · intro w hw
        rcases List.mem_cons.mp hw with hw | hw
        · exact List.mem_append_left _ (hw ▸ hv)
        · exact h4 w hw
    · obtain ⟨fresh, h1, h2, h3, h4⟩ := ih (q ++ [(v, depth + 1)]) (cov ++ [v])
      have hfv : v ∉ fresh := fun hvf => (h3 v hvf).2 (by simp)
      refine ⟨v :: fresh, ?_, List.nodup_cons.mpr ⟨hfv, h2⟩, ?_, ?_⟩
      · rw [pushFresh, List.foldl_cons]
        rw [pushFresh] at h1
        simp only [hv, if_false, ite_false, if_neg hv] at *
        rw [h1]
        simp
      · intro w hw
        rcases List.mem_cons.mp hw with hw | hw
        · exact ⟨by simp [hw], hw ▸ hv⟩
        · refine ⟨List.mem_cons_of_mem _ (h3 w hw).1, fun hwc => (h3 w hw).2 ?_⟩
          exact List.mem_append_left _ hwc
      · intro w hw
        rcases List.mem_cons.mp hw with hw | hw
        · simp [hw]
        · rw [List.append_cons]
          exact h4 w hw

lemma nextLevel_subset_ends (edges : List (String × String)) (v : String) :
    ∀ w ∈ nextLevel edges v, w ∈ ends edges := by
  intro w hw
  rw [nextLevel, List.mem_append] at hw
  rw [ends, List.mem_append]
  rcases hw with hw | hw
  · obtain ⟨e, he, hew⟩ := List.mem_map.mp hw
    exact Or.inr (List.mem_map.mpr ⟨e, (List.mem_filter.mp he).1, hew⟩)
  · obtain ⟨e, he, hew⟩ := List.mem_map.mp hw
    exact Or.inl (List.mem_map.mpr ⟨e, (List.mem_filter.mp he).1, hew⟩)

lemma bfsMeasure_push_lt (edges : List (String × String)) (v : String) (depth : ℕ)
    (rest : List (String × ℕ)) (cov : List String) :
    bfsMeasure edges (pushFresh (nextLevel edges v) depth rest cov).1
      (pushFresh (nextLevel edges v) depth rest cov).2 <
      bfsMeasure edges ((v, depth) :: rest) cov := by
  obtain ⟨fresh, h1, h2, h3, _⟩ := pushFresh_spec (nextLevel edges v) depth rest cov
  rw [h1]
  rw [bfsMeasure, bfsMeasure]
  have hsub : fresh.toFinset ⊆ (ends edges).toFinset \ cov.toFinset := by
    intro w hw
    rw [List.mem_toFinset] at hw
    rw [Finset.mem_sdiff, List.mem_toFinset, List.mem_toFinset]
    exact ⟨nextLevel_subset_ends edges v w (h3 w hw).1, (h3 w hw).2⟩
  have hunion : (cov ++ fresh).toFinset = cov.toFinset ∪ fresh.toFinset := by
    simp
  have hsdiff : (ends edges).toFinset \ (cov ++ fresh).toFinset =
      ((ends edges).toFinset \ cov.toFinset) \ fresh.toFinset := by
    rw [hunion, sdiff_sdiff_left]
    rfl
  have hcard : (((ends edges).toFinset \ cov.toFinset) \ fresh.toFinset).card +
      fresh.toFinset.card = ((ends edges).toFinset \ cov.toFinset).card :=
    Finset.card_sdiff_add_card_eq_card hsub
  have hflen : fresh.toFinset.card = fresh.length := List.toFinset_card_of_nodup h2
  rw [hsdiff]
  simp only [List.length_append, List.length_map, List.length_cons]
  omega

/-- Embeds `Graph.breadthFirstSearch`: pop the head of the queue, return
its depth if it is the end node, otherwise enqueue its uncovered
neighbours one level deeper and recurse; an exhausted queue throws
`Path not found.`. -/
def breadthFirstSearch (edges : List (String × String)) (queue : List (String × ℕ))
    (endNode : String) (covered : List String) : Except String ℕ :=
  match queue with
  | [] => Except.error "Path not found."
  | (currNode, depth) :: rest =>
    if currNode = endNode then Except.ok depth
    else
      breadthFirstSearch edges (pushFresh (nextLevel edges currNode) depth rest covered).1
        endNode (pushFresh (nextLevel edges currNode) depth rest covered).2
termination_by bfsMeasure edges queue covered
decreasing_by exact bfsMeasure_push_lt edges currNode depth rest covered

/-- Embeds `Graph.connectedComponentMapBF`: the same traversal, but on an
exhausted queue it returns the covered list. -/
def connectedComponentMapBF (edges : List (String × String))
    (queue : List (String × ℕ)) (covered : List String) : List String :=
  match queue with
  | [] => covered
  | (currNode, depth) :: rest =>
    connectedComponentMapBF edges (pushFresh (nextLevel edges currNode) depth rest covered).1
      (pushFresh (nextLevel edges currNode) depth rest covered).2
termination_by bfsMeasure edges queue covered
decreasing_by exact bfsMeasure_push_lt edges currNode depth rest covered

/-- Embeds `Graph.findLargestComponent`: run `connectedComponentMapBF`
from every node not yet in the running covered list, in node insertion
order with the origin enqueued at depth 0 and an empty covered list,
collect the returned components, and keep the first component that is
strictly longer than every earlier one. -/
def findLargestComponent (g : Graph) : List String :=
  (((g.nodes.foldl (fun (acc : List String × List (List String)) node =>
      if node.id ∈ acc.1 then acc
      else
        (acc.1 ++ connectedComponentMapBF g.edges [(node.id, 0)] [],
         acc.2 ++ [connectedComponentMapBF g.edges [(node.id, 0)] []])) ([], [])).2).foldl
    (fun largest comp => if largest.length < comp.length then comp else largest) [])

/-- A store with the single node `a` and no edges; its only connected
component is the singleton containing `a`. -/
def singletonGraph : Graph := ⟨[nodeA], ["a"], [("a", nodeA)], [], 100, 100, "", ""⟩

/-- C4, evaluation at the failing input: on a store with one isolated node
`a`, `findLargestComponent` returns the empty list rather than the node
set of the largest component.  The call site passes an empty covered list,
so the origin is never recorded and an isolated node yields an empty
component, contradicting the documented contract of
`connectedComponentMapBF` that the origin be passed in covered. -/
theorem findLargestComponent_isolated_bug :
    findLargestComponent singletonGraph = [] ∧ singletonGraph.nodes = [nodeA] := by
  have h1 : connectedComponentMapBF ([] : List (String × String)) [("a", 0)] [] = [] := by
    rw [connectedComponentMapBF.eq_def]
    simp only [nextLevel, pushFresh, List.filter_nil, List.map_nil, List.append_nil,
      List.foldl_nil]
    rw [connectedComponentMapBF.eq_def]
  constructor
  · rw [findLargestComponent]
    simp [singletonGraph, nodeA, h1]
  · rfl

/-- Embeds `Graph.shortestPath`: look both ids up, throw if either is
absent, otherwise search from the start node at depth 0 with an empty
covered list. -/
def shortestPath (g : Graph) (startId endId : String) : Except String ℕ :=
  match g.nodeDictionary.lookup startId, g.nodeDictionary.lookup endId with
  | some startNode, some endNode =>
    breadthFirstSearch g.edges [(startNode.id, 0)] endNode.id []
  | _, _ => Except.error "Path can only be calculated between two nodes in the network."

/-! Decimal representation of naturals.

`generateRandomNetwork` names its nodes with the template string
interpolation of the loop index, which for a natural number is its decimal
representation `Nat.repr`.  The lemmas below show `Nat.repr` is injective,
so the generated ids are pairwise distinct. -/

/-- Base-10 digit characters of `n`, most significant first. -/
def natDigits (n : ℕ) : List Char :=
  if _h : n < 10 then [Nat.digitChar n]
  else natDigits (n / 10) ++ [Nat.digitChar (n % 10)]
termination_by n
decreasing_by exact Nat.div_lt_self (by omega) (by norm_num)

lemma toDigitsCore_eq_natDigits (fuel : ℕ) :
    ∀ (n : ℕ) (ds : List Char), n < fuel →
      Nat.toDigitsCore 10 fuel n ds = natDigits n ++ ds := by
  induction fuel with
  | zero => intro n ds h; omega
  | succ fuel ih =>
    intro n ds h
    rw [Nat.toDigitsCore]
    by_cases h0 : n / 10 = 0
    · have hn : n < 10 := by omega
      simp only [h0, if_pos]
      rw [natDigits, dif_pos hn, Nat.mod_eq_of_lt hn]
      simp
    · have hn : ¬ n < 10 := by
        intro hlt
        exact h0 (Nat.div_eq_of_lt hlt)
      have hlt : n / 10 < fuel := by
        have := Nat.div_lt_self (show 0 < n by omega) (show 1 < 10 by norm_num)
        omega
      simp only [h0, if_neg, ite_false]
      rw [ih (n / 10) _ hlt]
      conv_rhs => rw [natDigits]
      rw [dif_neg hn]
      simp

lemma digitChar_toNat (n : ℕ) (h : n < 10) : (Nat.digitChar n).toNat = 48 + n := by
  interval_cases n <;> decide

lemma natDigits_foldl (n : ℕ) :
    ∀ a : ℕ, (natDigits n).foldl (fun a c => 10 * a + (c.toNat - 48)) a =
      a * 10 ^ (natDigits n).length + n := by
  induction n using Nat.strong_induction_on with
  | _ n ih =>
    intro a
    by_cases h : n < 10
    · rw [natDigits, dif_pos h]
      simp [digitChar_toNat n h]
      omega
    · rw [natDigits, dif_neg h]
      rw [List.foldl_append]
      have hdiv : n / 10 < n := Nat.div_lt_self (by omega) (by norm_num)
      rw [ih (n / 10) hdiv a]
      simp only [List.foldl_cons, List.foldl_nil, List.length_append, List.length_cons,
        List.length_nil]
      rw [digitChar_toNat (n % 10) (Nat.mod_lt _ (by norm_num))]
      have hmod : 10 * (n / 10) + n % 10 = n := Nat.div_add_mod n 10
      have hpow : 10 ^ ((natDigits (n / 10)).length + (0 + 1)) =
          10 ^ (natDigits (n / 10)).length * 10 := by
        rw [pow_succ]
      rw [hpow]
      generalize (10 : ℕ) ^ (natDigits (n / 10)).length = P
      have expand : a * (P * 10) = a * P * 10 := by ring
      rw [expand]
      omega

lemma natDigits_injective : Function.Injective natDigits := by
  intro m n h
  have hm := natDigits_foldl m 0
  have hn := natDigits_foldl n 0
  rw [h] at hm
  rw [hm] at hn
  omega

lemma natRepr_injective : Function.Injective Nat.repr := by
  intro m n h
  apply natDigits_injective
  have hm : Nat.repr m = (natDigits m).asString := by
    rw [Nat.repr, Nat.toDigits, toDigitsCore_eq_natDigits (m + 1) m [] (by omega)]
    simp
  have hn : Nat.repr n = (natDigits n).asString := by
    rw [Nat.repr, Nat.toDigits, toDigitsCore_eq_natDigits (n + 1) n [] (by omega)]
    simp
  rw [hm, hn] at h
  exact List.asString_inj.mp h

/-! Network generator. -/

/-- The node id the generator builds by template interpolation of the loop
index: the prefix followed by the decimal representation of `i`. -/
def genId (pfx : String) (i : ℕ) : String := pfx ++ Nat.repr i

lemma genId_injective (pfx : String) : Function.Injective (genId pfx) := by
  intro i j h
  apply natRepr_injective
  have hdata : (genId pfx i).data = (genId pfx j).data := by rw [h]
  rw [genId, genId, String.data_append, String.data_append] at hdata
  exact String.ext (List.append_cancel_left hdata)

/-- The node-creation loop of `generateRandomNetwork`: add one node per
index, with both coordinate defaults drawn from the random oracle `rand`
at the running counter.  A `DuplicateNodeError` thrown by `addNode`
propagates out of the loop. -/
def genNodesLoop (pfx : String) (rand : ℕ → ℚ) :
    List ℕ → Graph × ℕ → Except String (Graph × ℕ)
  | [], st => Except.ok st
  | i :: is, st =>
    let r := st.1.addNode (genId pfx i) none none none none none none
      (rand st.2) (rand (st.2 + 1))
    match r.2 with
    | Except.error e => Except.error e
    | Except.ok _ => genNodesLoop pfx rand is (r.1, st.2 + 2)

/-- One step of the inner edge loop of `generateRandomNetwork`: draw one
random number and add the edge from node `i` to node `j` exactly when the
draw is less than or equal to `p`. -/
def genEdgeStep (p : ℚ) (pfx : String) (rand : ℕ → ℚ) (i : ℕ)
    (st : Graph × ℕ) (j : ℕ) : Graph × ℕ :=
  if rand st.2 ≤ p then ((st.1.addEdge (genId pfx i) (genId pfx j)).1, st.2 + 1)
  else (st.1, st.2 + 1)

/-- The inner edge loop of `generateRandomNetwork` for a fixed `i`:
`for (let j = i + 1; j < n; j++)`. -/
def genEdgesOuter (p : ℚ) (pfx : String) (rand : ℕ → ℚ) (n : ℕ)
    (st : Graph × ℕ) (i : ℕ) : Graph × ℕ :=
  (List.range' (i + 1) (n - (i + 1))).foldl (genEdgeStep p pfx rand i) st

/-- Embeds `Graph.generateRandomNetwork`: create `n` nodes named by
`genId`, then for every pair `i < j` draw one random number and add the
edge when the draw is less than or equal to `p`.  `Math.random()` outcomes
are modelled by the oracle `rand` consumed at an explicit counter: two
draws per created node, then one draw per unordered pair, in loop order. -/
def generateRandomNetwork (g : Graph) (n : ℕ) (p : ℚ) (pfx : String)
    (rand : ℕ → ℚ) : Except String (Graph × ℕ) :=
  match genNodesLoop pfx rand (List.range n) (g, 0) with
  | Except.error e => Except.error e
  | Except.ok st =>
    Except.ok ((List.range n).foldl (genEdgesOuter p pfx rand n) st)

/-- The store a fresh `Graph` construction starts from: no nodes, no
edges, an empty id index, on a 100 by 100 canvas. -/
def emptyGraph : Graph := ⟨[], [], [], [], 100, 100, "", ""⟩

lemma addNode_fresh_fields (g : Graph) (id : String) (h : id ∉ g.nodeIds) (rx ry : ℚ) :
    (g.addNode id none none none none none none rx ry).1.nodeIds = g.nodeIds ++ [id] ∧
    (g.addNode id none none none none none none rx ry).1.edges = g.edges ∧
    ∃ nd, (g.addNode id none none none none none none rx ry).2 = Except.ok nd := by
  simp [Graph.addNode, h]

lemma genNodesLoop_ok (pfx : String) (rand : ℕ → ℚ) :
    ∀ (is : List ℕ) (st : Graph × ℕ),
      is.Nodup → (∀ i ∈ is, genId pfx i ∉ st.1.nodeIds) →
      ∃ st2, genNodesLoop pfx rand is st = Except.ok st2 ∧
        st2.1.nodeIds = st.1.nodeIds ++ is.map (genId pfx) ∧
        st2.1.edges = st.1.edges := by
  intro is
  induction is with
  | nil =>
    intro st _ _
    exact ⟨st, rfl, by simp, rfl⟩
  | cons i is ih =>
    intro st hnd hfresh
    have hi : genId pfx i ∉ st.1.nodeIds := hfresh i (by simp)
    obtain ⟨hids, hedges, nd, hok⟩ :=
      addNode_fresh_fields st.1 (genId pfx i) hi (rand st.2) (rand (st.2 + 1))
    have hfresh2 : ∀ i2 ∈ is,
        genId pfx i2 ∉
          (st.1.addNode (genId pfx i) none none none none none none
            (rand st.2) (rand (st.2 + 1))).1.nodeIds := by
      intro i2 hi2
      rw [hids, List.mem_append]
      rintro (hmem | hmem)
      · exact hfresh i2 (List.mem_cons_of_mem _ hi2) hmem
      · have : genId pfx i2 = genId pfx i := by simpa using hmem
        have : i2 = i := genId_injective pfx this
        exact (List.nodup_cons.mp hnd).1 (this ▸ hi2)
    obtain ⟨st2, hrec, hids2, hedges2⟩ :=
      ih ((st.1.addNode (genId pfx i) none none none none none none
            (rand st.2) (rand (st.2 + 1))).1, st.2 + 2) (List.nodup_cons.mp hnd).2 hfresh2
    refine ⟨st2, ?_, ?_, ?_⟩
    · rw [genNodesLoop]
      simp only [hok]
      exact hrec
    · rw [hids2]
      simp only [hids, List.map_cons]
      simp only [List.append_nil, List.append_assoc, List.singleton_append]
    · rw [hedges2]
      exact hedges

lemma addEdge_present (g : Graph) (s t : String) (hs : s ∈ g.nodeIds)
    (ht : t ∈ g.nodeIds) :
    (g.addEdge s t).1.edges = g.edges ++ [(s, t)] ∧
    (g.addEdge s t).1.nodeIds = g.nodeIds := by
  simp [Graph.addEdge, hs, ht]

lemma genEdges_inner_all (p : ℚ) (pfx : String) (rand : ℕ → ℚ) (i : ℕ)
    (hp : ∀ m, rand m ≤ p) :
    ∀ (js : List ℕ) (st : Graph × ℕ),
      genId pfx i ∈ st.1.nodeIds → (∀ j ∈ js, genId pfx j ∈ st.1.nodeIds) →
      ((js.foldl (genEdgeStep p pfx rand i) st).1.nodeIds = st.1.nodeIds ∧
       (js.foldl (genEdgeStep p pfx rand i) st).1.edges.length =
         st.1.edges.length + js.length) := by
  intro js
  induction js with
  | nil => intro st _ _; simp
  | cons j js ih =>
    intro st hi hjs
    rw [List.foldl_cons]
    have hj : genId pfx j ∈ st.1.nodeIds := hjs j (by simp)
    have hstep : genEdgeStep p pfx rand i st j =
        ((st.1.addEdge (genId pfx i) (genId pfx j)).1, st.2 + 1) := by
      rw [genEdgeStep, if_pos (hp st.2)]
    rw [hstep]
    obtain ⟨he, hn⟩ := addEdge_present st.1 (genId pfx i) (genId pfx j) hi hj
    obtain ⟨ihn, ihe⟩ :=
      ih ((st.1.addEdge (genId pfx i) (genId pfx j)).1, st.2 + 1)
        (by simpa [hn] using hi) (fun j2 hj2 => by
          simpa [hn] using hjs j2 (List.mem_cons_of_mem _ hj2))
    refine ⟨by rw [ihn]; exact hn, ?_⟩
    rw [ihe]
    simp [he]
    omega

lemma genEdges_inner_none (p : ℚ) (pfx : String) (rand : ℕ → ℚ) (i : ℕ)
    (hp : ∀ m, ¬ rand m ≤ p) :
    ∀ (js : List ℕ) (st : Graph × ℕ),
      (js.foldl (genEdgeStep p pfx rand i) st).1 = st.1 := by
  intro js
  induction js with
  | nil => intro st; rfl
  | cons j js ih =>
    intro st
    rw [List.foldl_cons]
    have hstep : genEdgeStep p pfx rand i st j = (st.1, st.2 + 1) := by
      rw [genEdgeStep, if_neg (hp st.2)]
    rw [hstep]
    exact ih (st.1, st.2 + 1)

lemma genEdges_outer_all (p : ℚ) (pfx : String) (rand : ℕ → ℚ) (n : ℕ)
    (hp : ∀ m, rand m ≤ p) :
    ∀ (il : List ℕ) (st : Graph × ℕ),
      (∀ k, k < n → genId pfx k ∈ st.1.nodeIds) →
      ((il.foldl (genEdgesOuter p pfx rand n) st).1.nodeIds = st.1.nodeIds ∧
       (il.foldl (genEdgesOuter p pfx rand n) st).1.edges.length =
         st.1.edges.length + (il.map (fun i => n - (i + 1))).sum) := by
  intro il
  induction il with
  | nil => intro st _; simp
  | cons i il ih =>
    intro st hall
    rw [List.foldl_cons]
    by_cases hin : i < n
    · have hi : genId pfx i ∈ st.1.nodeIds := hall i hin
      have hjs : ∀ j ∈ List.range' (i + 1) (n - (i + 1)), genId pfx j ∈ st.1.nodeIds := by
        intro j hj
        have hjn : j < n := by
          have := List.mem_range'_1.mp hj
          omega
        exact hall j hjn
      obtain ⟨h1n, h1e⟩ :=
        genEdges_inner_all p pfx rand i hp (List.range' (i + 1) (n - (i + 1))) st hi hjs
      obtain ⟨ihn, ihe⟩ := ih (genEdgesOuter p pfx rand n st i)
        (fun k hk => by rw [genEdgesOuter, h1n]; exact hall k hk)
      refine ⟨by rw [ihn, genEdgesOuter, h1n], ?_⟩
      rw [ihe, genEdgesOuter, h1e, List.length_range']
      simp only [List.map_cons, List.sum_cons]
      omega
    · have hempty : n - (i + 1) = 0 := by omega
      have houter : genEdgesOuter p pfx rand n st i = st := by
        rw [genEdgesOuter, hempty]
        rfl
      rw [houter]
      obtain ⟨ihn, ihe⟩ := ih st hall
      refine ⟨ihn, ?_⟩
      rw [ihe]
      simp only [List.map_cons, List.sum_cons, hempty]
      omega

lemma genEdges_outer_none (p : ℚ) (pfx : String) (rand : ℕ → ℚ) (n : ℕ)
    (hp : ∀ m, ¬ rand m ≤ p) :
    ∀ (il : List ℕ) (st : Graph × ℕ),
      (il.foldl (genEdgesOuter p pfx rand n) st).1 = st.1 := by
  intro il
  induction il with
  | nil => intro st; rfl
  | cons i il ih =>
    intro st
    rw [List.foldl_cons]
    have h1 : (genEdgesOuter p pfx rand n st i).1 = st.1 := by
      rw [genEdgesOuter]
      exact genEdges_inner_none p pfx rand i hp _ st
    rw [← h1]
    have := ih (genEdgesOuter p pfx rand n st i)
    rw [this]

lemma listRange_sum_mul_two (n : ℕ) : (List.range n).sum * 2 = n * (n - 1) := by
  induction n with
  | zero => simp
  | succ n ih =>
    rw [List.range_succ, List.sum_append]
    simp only [List.sum_cons, List.sum_nil, add_zero]
    cases n with
    | zero => simp
    | succ m =>
      have h2 : (m + 1 + 1) * (m + 1 + 1 - 1) = m * m + 3 * m + 2 := by
        simp only [Nat.add_sub_cancel]
        ring
      have h3 : (m + 1) * (m + 1 - 1) = m * m + m := by
        simp only [Nat.add_sub_cancel]
        ring
      rw [h2]
      rw [h3] at ih
      omega

lemma range_map_reflect (n : ℕ) :
    (List.range n).map (fun i => n - 1 - i) = (List.range n).reverse := by
  rw [List.range_eq_range', List.reverse_range']
  simp only [zero_add]
  rw [← List.range_eq_range']

lemma range_map_sub_sum (n : ℕ) :
    ((List.range n).map (fun i => n - (i + 1))).sum = n * (n - 1) / 2 := by
  have hfun : (fun i => n - (i + 1)) = (fun i => n - 1 - i) := by
    funext i
    omega
  rw [hfun, range_map_reflect, List.sum_reverse]
  have := listRange_sum_mul_two n
  omega

/-! C8: `generateRandomNetwork` at the extreme probabilities. -/

/-- Counterexample to C8 as stated: with `p = 0` and a random source whose
draws are all exactly 0, the generator on an empty store with 2 nodes adds
the edge, because the source tests `Math.random() <= p` and `0 <= 0`
holds; the claim predicts zero edges for every outcome. -/
theorem generateRandomNetwork_p0_counterexample :
    (generateRandomNetwork emptyGraph 2 0 "n" (fun _ => 0)).map
      (fun st => st.1.edges.length) = Except.ok 1 ∧
    (Except.ok 1 : Except String ℕ) ≠ Except.ok 0 := by
  constructor
  · rfl
  · intro h
    exact absurd (Except.ok.inj h) one_ne_zero

/-- C8 amended: for every `n` and every outcome of the random source with
draws in `[0, 1)`, `generateRandomNetwork n 1.0` on an empty store
produces a complete graph with exactly `n (n-1) / 2` edges; and
`generateRandomNetwork n 0.0` produces zero edges for every outcome in
which every draw is strictly positive (a draw of exactly 0 still adds its
edge, because the source compares with `<=`). -/
theorem generateRandomNetwork_extremes (n : ℕ) (rand : ℕ → ℚ)
    (h01 : ∀ m, 0 ≤ rand m ∧ rand m < 1) :
    (∃ st : Graph × ℕ, generateRandomNetwork emptyGraph n 1 "n" rand = Except.ok st ∧
      st.1.edges.length = n * (n - 1) / 2) ∧
    ((∀ m, 0 < rand m) →
      ∃ st : Graph × ℕ, generateRandomNetwork emptyGraph n 0 "n" rand = Except.ok st ∧
        st.1.edges.length = 0) := by
  obtain ⟨st, hok, hids, hedges⟩ := genNodesLoop_ok "n" rand (List.range n)
    (emptyGraph, 0) (List.nodup_range n) (fun i _ => by simp [emptyGraph])
  have hall : ∀ k, k < n → genId "n" k ∈ st.1.nodeIds := by
    intro k hk
    rw [hids]
    simp [emptyGraph]
    exact ⟨k, hk, rfl⟩
  have hedges0 : st.1.edges.length = 0 := by
    rw [hedges]
    rfl
  constructor
  · have hp : ∀ m, rand m ≤ 1 := fun m => le_of_lt (h01 m).2
    obtain ⟨hn, he⟩ := genEdges_outer_all 1 "n" rand n hp (List.range n) st hall
    refine ⟨(List.range n).foldl (genEdgesOuter 1 "n" rand n) st, ?_, ?_⟩
    · rw [generateRandomNetwork, hok]
    · rw [he, hedges0, range_map_sub_sum]
      omega
  · intro hpos
    have hp : ∀ m, ¬ rand m ≤ 0 := fun m => not_le.mpr (hpos m)
    have h1 := genEdges_outer_none 0 "n" rand n hp (List.range n) st
    refine ⟨(List.range n).foldl (genEdgesOuter 0 "n" rand n) st, ?_, ?_⟩
    · rw [generateRandomNetwork, hok]
    · rw [h1, hedges0]

/-- Witness for C8 amended at a concrete input: with three nodes and the
constant draw 1/2, the `p = 1` run yields 3 edges and the `p = 0` run
yields none. -/
theorem generateRandomNetwork_extremes_witness :
    (∀ m : ℕ, 0 ≤ (fun _ : ℕ => (1 : ℚ) / 2) m ∧ (fun _ : ℕ => (1 : ℚ) / 2) m < 1) ∧
    ((∃ st : Graph × ℕ,
        generateRandomNetwork emptyGraph 3 1 "n" (fun _ => (1 : ℚ) / 2) = Except.ok st ∧
        st.1.edges.length = 3 * (3 - 1) / 2) ∧
     ((∀ m : ℕ, 0 < (fun _ : ℕ => (1 : ℚ) / 2) m) →
      ∃ st : Graph × ℕ,
        generateRandomNetwork emptyGraph 3 0 "n" (fun _ => (1 : ℚ) / 2) = Except.ok st ∧
        st.1.edges.length = 0)) :=
  ⟨fun _ => ⟨by norm_num, by norm_num⟩,
   generateRandomNetwork_extremes 3 (fun _ => (1 : ℚ) / 2)
     (fun _ => ⟨by norm_num, by norm_num⟩)⟩

/-! C5: correctness of `shortestPath`.

The specification side: `adj` is the undirected adjacency the traversal
expands (out-edges and in-edges), `WalkLen n a b` says some walk of `n`
hops joins `a` to `b`, and the minimal such `n` is the hop-count
distance. -/

/-- Undirected one-step adjacency: exactly the nodes the traversal puts in
`nextLevelNodes`. -/
def adj (edges : List (String × String)) (u v : String) : Prop :=
  v ∈ nextLevel edges u

lemma adj_iff (edges : List (String × String)) (u v : String) :
    adj edges u v ↔ ((u, v) ∈ edges ∨ (v, u) ∈ edges) := by
  rw [adj, nextLevel, List.mem_append]
  constructor
  · rintro (h | h)
    · obtain ⟨e, he, hev⟩ := List.mem_map.mp h
      rw [List.mem_filter] at he
      left
      have h1 : e.1 = u := by simpa using he.2
      have : e = (u, v) := by
        cases e
        simp_all
      exact this ▸ he.1
    · obtain ⟨e, he, hev⟩ := List.mem_map.mp h
      rw [List.mem_filter] at he
      right
      have h2 : e.2 = u := by simpa using he.2
      have : e = (v, u) := by
        cases e
        simp_all
      exact this ▸ he.1
  · rintro (h | h)
    · exact Or.inl (List.mem_map.mpr ⟨(u, v), List.mem_filter.mpr ⟨h, by simp⟩, rfl⟩)
    · exact Or.inr (List.mem_map.mpr ⟨(v, u), List.mem_filter.mpr ⟨h, by simp⟩, rfl⟩)

lemma adj_symm {edges : List (String × String)} {u v : String}
    (h : adj edges u v) : adj edges v u := by
  rw [adj_iff] at h ⊢
  tauto

/-- A walk of `n` hops from `a` to `b` along undirected edges. -/
inductive WalkLen (edges : List (String × String)) : ℕ → String → String → Prop where
  | refl (v : String) : WalkLen edges 0 v v
  | step {n : ℕ} {a b c : String} :
      WalkLen edges n a b → adj edges b c → WalkLen edges (n + 1) a c

lemma walkLen_zero {edges : List (String × String)} {a b : String}
    (h : WalkLen edges 0 a b) : a = b := by
  cases h
  rfl

lemma walkLen_succ_head {edges : List (String × String)} :
    ∀ {n : ℕ} {a c : String}, WalkLen edges (n + 1) a c →
      ∃ b, adj edges a b ∧ WalkLen edges n b c := by
  intro n
  induction n with
  | zero =>
    intro a c h
    cases h with
    | step hw hadj =>
      have := walkLen_zero hw
      exact ⟨c, this ▸ hadj, WalkLen.refl c⟩
  | succ n ih =>
    intro a c h
    cases h with
    | step hw hadj =>
      obtain ⟨d, hd, hw2⟩ := ih hw
      exact ⟨d, hd, WalkLen.step hw2 hadj⟩

lemma walkLen_cons {edges : List (String × String)} :
    ∀ {n : ℕ} {b c : String}, WalkLen edges n b c →
      ∀ {a : String}, adj edges a b → WalkLen edges (n + 1) a c := by
  intro n b c h
  induction h with
  | refl v =>
    intro a hab
    exact WalkLen.step (WalkLen.refl a) hab
  | step hw hadj ih =>
    intro a hab
    exact WalkLen.step (ih hab) hadj

lemma walkLen_succ_head_iff {edges : List (String × String)} {n : ℕ} {a c : String} :
    WalkLen edges (n + 1) a c ↔ ∃ b, adj edges a b ∧ WalkLen edges n b c :=
  ⟨walkLen_succ_head, fun ⟨_, hab, hw⟩ => walkLen_cons hw hab⟩

/-- `d` is the hop-count distance from `a` to `b`. -/
def IsDist (edges : List (String × String)) (a b : String) (d : ℕ) : Prop :=
  WalkLen edges d a b ∧ ∀ e < d, ¬ WalkLen edges e a b

lemma IsDist.unique {edges : List (String × String)} {a b : String} {d d2 : ℕ}
    (h1 : IsDist edges a b d) (h2 : IsDist edges a b d2) : d = d2 := by
  by_contra hne
  rcases Nat.lt_or_ge d d2 with h | h
  · exact h2.2 d h h1.1
  · exact h1.2 d2 (by omega) h2.1

lemma mem_map_fst {l : List (String × ℕ)} {v : String} :
    v ∈ l.map Prod.fst ↔ ∃ d, (v, d) ∈ l := by
  rw [List.mem_map]
  constructor
  · rintro ⟨⟨v2, d⟩, hmem, rfl⟩
    exact ⟨d, hmem⟩
  · rintro ⟨d, hd⟩
    exact ⟨(v, d), hd, rfl⟩

lemma depth_unique_of_nodup {l : List (String × ℕ)}
    (hnd : (l.map Prod.fst).Nodup) {v : String} {d d2 : ℕ}
    (h1 : (v, d) ∈ l) (h2 : (v, d2) ∈ l) : d = d2 := by
  induction l with
  | nil => cases h1
  | cons hd tl ih =>
    rw [List.map_cons, List.nodup_cons] at hnd
    rcases List.mem_cons.mp h1 with h1 | h1 <;> rcases List.mem_cons.mp h2 with h2 | h2
    · rw [← h2] at h1
      exact (Prod.mk.inj h1).2
    · exfalso
      apply hnd.1
      rw [← h1]
      exact mem_map_fst.mpr ⟨d2, h2⟩
    · exfalso
      apply hnd.1
      rw [← h2]
      exact mem_map_fst.mpr ⟨d, h1⟩
    · exact ih hnd.2 h1 h2

lemma pairwise_const_le (d : ℕ) (l : List String) :
    ((l.map (fun _ => d)).Pairwise (· ≤ ·)) := by
  induction l with
  | nil => simp
  | cons v l ih =>
    rw [List.map_cons, List.pairwise_cons]
    exact ⟨fun b hb => by
      obtain ⟨_, _, rfl⟩ := List.mem_map.mp hb
      exact le_refl d, ih⟩

/-- The breadth-first-search invariant, relative to the start node `s` and
the searched-for node `t`.  `q` and `cov` are the live queue and covered
list; `P` is the history of already-processed queue entries in processing
order, so `P ++ q` lists every entry ever enqueued, in enqueue order.  The
start entry `(s, 0)` is the one entry never recorded in `cov` (the call
sites pass an empty covered list), which is why `s` is exempt from the
minimal-depth field and may be enqueued a second time. -/
structure BfsInv (edges : List (String × String)) (s t : String)
    (P q : List (String × ℕ)) (cov : List String) : Prop where
  decomp : ∃ H0, P ++ q = (s, 0) :: H0 ∧ cov = H0.map Prod.fst
  nodup : cov.Nodup
  sorted : ((P ++ q).map Prod.snd).Pairwise (· ≤ ·)
  span : ∀ p ∈ P ++ q, ∀ p2 ∈ q, p.2 ≤ p2.2 + 1
  sound : ∀ p ∈ P ++ q, WalkLen edges p.2 s p.1
  mindepth : ∀ p ∈ P ++ q, p.1 ≠ s → ∀ e < p.2, ¬ WalkLen edges e s p.1
  nbrs : ∀ p ∈ P, ∀ w ∈ nextLevel edges p.1, ∃ dw, (w, dw) ∈ P ++ q ∧ dw ≤ p.2 + 1
  not_t : ∀ p ∈ P, p.1 ≠ t
  complete : ∀ v e, WalkLen edges e s v →
    (∃ d, d ≤ e ∧ (v, d) ∈ P ++ q) ∨
    (∃ u du e2, (u, du) ∈ q ∧ WalkLen edges e2 u v ∧ du + e2 ≤ e)

lemma BfsInv.head_min {edges : List (String × String)} {s t c : String} {dc : ℕ}
    {P rest : List (String × ℕ)} {cov : List String}
    (inv : BfsInv edges s t P ((c, dc) :: rest) cov) :
    ∀ p ∈ (c, dc) :: rest, dc ≤ p.2 := by
  have hsub : List.Sublist (((c, dc) :: rest).map Prod.snd)
      ((P ++ (c, dc) :: rest).map Prod.snd) :=
    List.Sublist.map _ (List.sublist_append_right _ _)
  have hsorted2 := List.Pairwise.sublist hsub inv.sorted
  intro p hp
  rcases List.mem_cons.mp hp with rfl | hp
  · exact le_refl _
  · rw [List.map_cons, List.pairwise_cons] at hsorted2
    exact hsorted2.1 p.2 (List.mem_map.mpr ⟨p, hp, rfl⟩)

lemma BfsInv.mem_cov {edges : List (String × String)} {s t : String}
    {P q : List (String × ℕ)} {cov : List String}
    (inv : BfsInv edges s t P q cov) :
    ∀ p ∈ P ++ q, p.1 = s ∨ p.1 ∈ cov := by
  obtain ⟨H0, hH, hcov⟩ := inv.decomp
  intro p hp
  rw [hH] at hp
  rcases List.mem_cons.mp hp with rfl | hp
  · exact Or.inl rfl
  · exact Or.inr (hcov ▸ List.mem_map.mpr ⟨p, hp, rfl⟩)

lemma BfsInv.depth_unique {edges : List (String × String)} {s t : String}
    {P q : List (String × ℕ)} {cov : List String}
    (inv : BfsInv edges s t P q cov) {v : String} {d d2 : ℕ} (hv : v ≠ s)
    (h1 : (v, d) ∈ P ++ q) (h2 : (v, d2) ∈ P ++ q) : d = d2 := by
  obtain ⟨H0, hH, hcov⟩ := inv.decomp
  rw [hH] at h1 h2
  rcases List.mem_cons.mp h1 with h1 | h1
  · exact absurd (Prod.mk.inj h1).1 hv
  rcases List.mem_cons.mp h2 with h2 | h2
  · exact absurd (Prod.mk.inj h2).1 hv
  exact depth_unique_of_nodup (hcov ▸ inv.nodup) h1 h2

/-- Walk chasing: when every processed entry has all its neighbours
recorded at depth at most one deeper, any walk starting at a recorded
entry within budget either ends at a recorded entry within budget or
passes a still-queued entry within budget. -/
lemma chase (edges : List (String × String)) {P q : List (String × ℕ)}
    (hnbrs : ∀ p ∈ P, ∀ w ∈ nextLevel edges p.1, ∃ dw, (w, dw) ∈ P ++ q ∧ dw ≤ p.2 + 1) :
    ∀ (r : ℕ) (x : String) (dx : ℕ) (v : String) (e : ℕ),
      (x, dx) ∈ P ++ q → WalkLen edges r x v → dx + r ≤ e →
      (∃ d, d ≤ e ∧ (v, d) ∈ P ++ q) ∨
      (∃ u du e2, (u, du) ∈ q ∧ WalkLen edges e2 u v ∧ du + e2 ≤ e) := by
  intro r
  induction r with
  | zero =>
    intro x dx v e hx hw hb
    have hxv := walkLen_zero hw
    exact Or.inl ⟨dx, by omega, hxv ▸ hx⟩
  | succ r ih =>
    intro x dx v e hx hw hb
    rcases List.mem_append.mp hx with hxP | hxq
    · obtain ⟨w, haw, hwv⟩ := walkLen_succ_head hw
      obtain ⟨dw, hwmem, hdw⟩ := hnbrs (x, dx) hxP w haw
      exact ih w dw v e hwmem hwv (by omega)
    · exact Or.inr ⟨x, dx, r + 1, hxq, hw, by omega⟩

/-- Processing one queue entry that is not the searched-for node preserves
the invariant. -/
lemma bfsInv_step (edges : List (String × String)) (s t : String)
    (P rest : List (String × ℕ)) (cov : List String) (c : String) (dc : ℕ)
    (inv : BfsInv edges s t P ((c, dc) :: rest) cov) (hct : c ≠ t) :
    BfsInv edges s t (P ++ [(c, dc)])
      (pushFresh (nextLevel edges c) dc rest cov).1
      (pushFresh (nextLevel edges c) dc rest cov).2 := by
  obtain ⟨fresh, hpf, hfnd, hfmem, hfall⟩ := pushFresh_spec (nextLevel edges c) dc rest cov
  set F : List (String × ℕ) := fresh.map (fun v => (v, dc + 1)) with hF
  rw [hpf]
  show BfsInv edges s t (P ++ [(c, dc)]) (rest ++ F) (cov ++ fresh)
  obtain ⟨H0, hH, hcov⟩ := inv.decomp
  have hH' : (P ++ [(c, dc)]) ++ (rest ++ F) = (P ++ (c, dc) :: rest) ++ F := by
    simp
  have hheadmin := inv.head_min
  have hspanH : ∀ p ∈ P ++ (c, dc) :: rest, p.2 ≤ dc + 1 :=
    fun p hp => inv.span p hp (c, dc) (List.mem_cons_self _ _)
  have hcdc_mem : (c, dc) ∈ P ++ (c, dc) :: rest := by simp
  have hFsnd : ∀ p ∈ F, p.2 = dc + 1 := by
    intro p hp
    obtain ⟨w, _, rfl⟩ := List.mem_map.mp hp
    rfl
  have hFmem_entry : ∀ p ∈ F, p.1 ∈ fresh ∧ p.2 = dc + 1 := by
    intro p hp
    obtain ⟨w, hw, rfl⟩ := List.mem_map.mp hp
    exact ⟨hw, rfl⟩
  have hfresh_nl : ∀ w ∈ fresh, w ∈ nextLevel edges c := fun w hw => (hfmem w hw).1
  have hfresh_nc : ∀ w ∈ fresh, w ∉ cov := fun w hw => (hfmem w hw).2
  have hdecomp : ∃ H1, (P ++ [(c, dc)]) ++ (rest ++ F) = (s, 0) :: H1 ∧
      cov ++ fresh = H1.map Prod.fst := by
    refine ⟨H0 ++ F, ?_, ?_⟩
    · rw [hH', hH]
      simp
    · rw [hcov, hF, List.map_append, List.map_map]
      simp only [Function.comp_def]
      simp
  have hnodup : (cov ++ fresh).Nodup :=
    List.Nodup.append inv.nodup hfnd (fun a ha hf => hfresh_nc a hf ha)
  have hsorted : (((P ++ [(c, dc)]) ++ (rest ++ F)).map Prod.snd).Pairwise (· ≤ ·) := by
    rw [hH', List.map_append, List.pairwise_append]
    refine ⟨inv.sorted, ?_, ?_⟩
    · rw [hF, List.map_map]
      exact pairwise_const_le (dc + 1) fresh
    · intro a ha b hb
      obtain ⟨p, hp, rfl⟩ := List.mem_map.mp ha
      obtain ⟨p2, hp2, rfl⟩ := List.mem_map.mp hb
      have h1 := hspanH p hp
      have h2 := hFsnd p2 hp2
      omega
  have hspan : ∀ p ∈ (P ++ [(c, dc)]) ++ (rest ++ F), ∀ p2 ∈ rest ++ F,
      p.2 ≤ p2.2 + 1 := by
    intro p hp p2 hp2
    rw [hH'] at hp
    rcases List.mem_append.mp hp with hpH | hpF
    · rcases List.mem_append.mp hp2 with h2r | h2F
      · exact inv.span p hpH p2 (List.mem_cons_of_mem _ h2r)
      · have h1 := hspanH p hpH
        have h2 := hFsnd p2 h2F
        omega
    · have hpv := hFsnd p hpF
      rcases List.mem_append.mp hp2 with h2r | h2F
      · have h2 := hheadmin p2 (List.mem_cons_of_mem _ h2r)
        omega
      · have h2 := hFsnd p2 h2F
        omega
  have hsound : ∀ p ∈ (P ++ [(c, dc)]) ++ (rest ++ F), WalkLen edges p.2 s p.1 := by
    intro p hp
    rw [hH'] at hp
    rcases List.mem_append.mp hp with hpH | hpF
    · exact inv.sound p hpH
    · obtain ⟨w, hwf, rfl⟩ := List.mem_map.mp hpF
      exact WalkLen.step (inv.sound (c, dc) hcdc_mem) (hfresh_nl w hwf)
  have hmindepth : ∀ p ∈ (P ++ [(c, dc)]) ++ (rest ++ F), p.1 ≠ s →
      ∀ e, e < p.2 → ¬ WalkLen edges e s p.1 := by
    intro p hp hps e he hwalk
    rw [hH'] at hp
    rcases List.mem_append.mp hp with hpH | hpF
    · exact inv.mindepth p hpH hps e he hwalk
    · obtain ⟨hwf, hp2⟩ := hFmem_entry p hpF
      rw [hp2] at he
      rcases inv.complete p.1 e hwalk with ⟨d, hde, hmem⟩ | ⟨u, du, e2, huq, hwalk2, hbud⟩
      · rcases inv.mem_cov (p.1, d) hmem with h | h
        · exact hps h
        · exact hfresh_nc p.1 hwf h
      · have hdu := hheadmin (u, du) huq
        have he2 : e2 = 0 := by omega
        subst he2
        have huv : u = p.1 := walkLen_zero hwalk2
        rcases inv.mem_cov (u, du) (List.mem_append_right _ huq) with h | h
        · exact hps (huv ▸ h)
        · exact hfresh_nc p.1 hwf (huv ▸ h)
  have hnbrs2 : ∀ p ∈ P ++ [(c, dc)], ∀ w ∈ nextLevel edges p.1,
      ∃ dw, (w, dw) ∈ (P ++ [(c, dc)]) ++ (rest ++ F) ∧ dw ≤ p.2 + 1 := by
    intro p hp w hw
    rw [hH']
    rcases List.mem_append.mp hp with hpP | hpc
    · obtain ⟨dw, hmem, hle⟩ := inv.nbrs p hpP w hw
      exact ⟨dw, List.mem_append_left _ hmem, hle⟩
    · have hpeq : p = (c, dc) := by simpa using hpc
      subst hpeq
      rcases List.mem_append.mp (hfall w hw) with hwcov | hwfresh
      · have hw0 : w ∈ H0.map Prod.fst := hcov ▸ hwcov
        obtain ⟨dw, hdw⟩ := mem_map_fst.mp hw0
        have hmemH : (w, dw) ∈ P ++ (c, dc) :: rest := by
          rw [hH]
          exact List.mem_cons_of_mem _ hdw
        exact ⟨dw, List.mem_append_left _ hmemH, hspanH _ hmemH⟩
      · exact ⟨dc + 1,
          List.mem_append_right _ (List.mem_map.mpr ⟨w, hwfresh, rfl⟩), le_refl _⟩
  have hnott : ∀ p ∈ P ++ [(c, dc)], p.1 ≠ t := by
    intro p hp
    rcases List.mem_append.mp hp with h | h
    · exact inv.not_t p h
    · have hpeq : p = (c, dc) := by simpa using h
      rw [hpeq]
      exact hct
  have hcomplete : ∀ v e, WalkLen edges e s v →
      (∃ d, d ≤ e ∧ (v, d) ∈ (P ++ [(c, dc)]) ++ (rest ++ F)) ∨
      (∃ u du e2, (u, du) ∈ rest ++ F ∧ WalkLen edges e2 u v ∧ du + e2 ≤ e) := by
    intro v e hw
    rcases inv.complete v e hw with ⟨d, hde, hmem⟩ | ⟨u, du, e2, huq, hwalk, hbud⟩
    · refine Or.inl ⟨d, hde, ?_⟩
      rw [hH']
      exact List.mem_append_left _ hmem
    · rcases List.mem_cons.mp huq with hueq | hurest
      · have hu : u = c := (Prod.mk.inj hueq).1
        have hdu : du = dc := (Prod.mk.inj hueq).2
        subst hu
        subst hdu
        cases e2 with
        | zero =>
          have hcv : u = v := walkLen_zero hwalk
          refine Or.inl ⟨du, by omega, ?_⟩
          rw [hH', ← hcv]
          exact List.mem_append_left _ hcdc_mem
        | succ e3 =>
          obtain ⟨w, haw, hw3⟩ := walkLen_succ_head hwalk
          obtain ⟨dw, hwmem, hdwle⟩ := hnbrs2 (u, du) (by simp) w haw
          exact chase edges hnbrs2 e3 w dw v e hwmem hw3 (by omega)
      · exact Or.inr ⟨u, du, e2, List.mem_append_left _ hurest, hwalk, hbud⟩
  exact ⟨hdecomp, hnodup, hsorted, hspan, hsound, hmindepth, hnbrs2, hnott, hcomplete⟩

/-- The behaviour of `breadthFirstSearch` from any state satisfying the
invariant: a returned depth is the hop-count distance, and the
`Path not found.` outcome implies the target is unreachable. -/
lemma bfs_spec (edges : List (String × String)) (s t : String) (hts : t ≠ s) :
    ∀ (m : ℕ) (P q : List (String × ℕ)) (cov : List String),
      bfsMeasure edges q cov = m →
      BfsInv edges s t P q cov →
      (∀ d, breadthFirstSearch edges q t cov = Except.ok d → IsDist edges s t d) ∧
      (∀ e, breadthFirstSearch edges q t cov = Except.error e →
        ¬ ∃ n, WalkLen edges n s t) := by
  intro m
  induction m using Nat.strong_induction_on with
  | _ m ih =>
    intro P q cov hm inv
    cases q with
    | nil =>
      constructor
      · intro d hok
        rw [breadthFirstSearch.eq_def] at hok
        simp at hok
      · intro e _
        rintro ⟨n, hwn⟩
        rcases inv.complete t n hwn with ⟨d, _, hmem⟩ | ⟨u, du, e2, huq, _, _⟩
        · rw [List.append_nil] at hmem
          exact inv.not_t (t, d) hmem rfl
        · cases huq
    | cons hd rest =>
      obtain ⟨c, dc⟩ := hd
      by_cases hct : c = t
      · have hcs : c ≠ s := by
          rw [hct]
          exact hts
        have hmem_c : (c, dc) ∈ P ++ (c, dc) :: rest := by simp
        have hdist : IsDist edges s t dc := by
          constructor
          · have := inv.sound (c, dc) hmem_c
            rwa [hct] at this
          · intro e he hwalk
            rw [← hct] at hwalk
            rcases inv.complete c e hwalk with ⟨d2, hd2e, hmem2⟩ | ⟨u, du, e2, huq, hw2, hbud⟩
            · have := inv.depth_unique hcs hmem2 hmem_c
              omega
            · have := inv.head_min (u, du) huq
              omega
        constructor
        · intro d hok
          rw [breadthFirstSearch.eq_def] at hok
          simp only [if_pos hct] at hok
          have : dc = d := by
            simpa using hok
          rwa [← this]
        · intro e herr
          rw [breadthFirstSearch.eq_def] at herr
          simp [if_pos hct] at herr
      · have inv2 := bfsInv_step edges s t P rest cov c dc inv hct
        have hmlt := bfsMeasure_push_lt edges c dc rest cov
        rw [hm] at hmlt
        have hrec := ih _ hmlt (P ++ [(c, dc)])
          (pushFresh (nextLevel edges c) dc rest cov).1
          (pushFresh (nextLevel edges c) dc rest cov).2 rfl inv2
        constructor
        · intro d hok
          rw [breadthFirstSearch.eq_def] at hok
          simp only [if_neg hct] at hok
          exact hrec.1 d hok
        · intro e herr
          rw [breadthFirstSearch.eq_def] at herr
          simp only [if_neg hct] at herr
          exact hrec.2 e herr

/-- `breadthFirstSearch` always returns a depth or the
`Path not found.` error. -/
lemma bfs_total (edges : List (String × String)) (t : String) :
    ∀ (m : ℕ) (q : List (String × ℕ)) (cov : List String),
      bfsMeasure edges q cov = m →
      (∃ d, breadthFirstSearch edges q t cov = Except.ok d) ∨
      breadthFirstSearch edges q t cov = Except.error "Path not found." := by
  intro m
  induction m using Nat.strong_induction_on with
  | _ m ih =>
    intro q cov hm
    cases q with
    | nil =>
      right
      rw [breadthFirstSearch.eq_def]
    | cons hd rest =>
      obtain ⟨c, dc⟩ := hd
      by_cases hct : c = t
      · left
        refine ⟨dc, ?_⟩
        rw [breadthFirstSearch.eq_def]
        simp [if_pos hct]
      · have hmlt := bfsMeasure_push_lt edges c dc rest cov
        rw [hm] at hmlt
        have hrec := ih _ hmlt (pushFresh (nextLevel edges c) dc rest cov).1
          (pushFresh (nextLevel edges c) dc rest cov).2 rfl
        rcases hrec with ⟨d, hok⟩ | herr
        · left
          refine ⟨d, ?_⟩
          rw [breadthFirstSearch.eq_def]
          simpa [if_neg hct] using hok
        · right
          rw [breadthFirstSearch.eq_def]
          simpa [if_neg hct] using herr

/-- The invariant holds at the state `shortestPath` starts the search
from: the start node alone in the queue at depth 0, nothing covered, and
no processing history. -/
lemma bfsInv_init (edges : List (String × String)) (s t : String) :
    BfsInv edges s t [] [(s, 0)] [] := by
  refine ⟨⟨[], rfl, rfl⟩, List.nodup_nil, ?_, ?_, ?_, ?_, ?_, ?_, ?_⟩
  · simp
  · intro p hp p2 hp2
    simp at hp hp2
    rw [hp, hp2]
    omega
  · intro p hp
    simp at hp
    rw [hp]
    exact WalkLen.refl s
  · intro p hp hps
    simp at hp
    exact absurd (by rw [hp]) hps
  · intro p hp
    cases hp
  · intro p hp
    cases hp
  · intro v e hw
    exact Or.inr ⟨s, 0, e, by simp, hw, by omega⟩

/-- C5: for every well-formed store, `shortestPath` with two stored ids
returns exactly the minimal hop-count distance treating every edge as
undirected (in particular distance 0 from a node to itself), fails with
the `Path not found.` error exactly when the end node is unreachable from
the start node, and fails with the node-not-found error whenever either id
is absent from the store. -/
theorem shortestPath_spec (g : Graph) (h_wf : g.WF) (startId endId : String) :
    (startId ∈ g.nodeIds → endId ∈ g.nodeIds →
      ((∀ d, shortestPath g startId endId = Except.ok d ↔
          IsDist g.edges startId endId d) ∧
       (shortestPath g startId endId = Except.error "Path not found." ↔
          ¬ ∃ n, WalkLen g.edges n startId endId) ∧
       (startId = endId → shortestPath g startId endId = Except.ok 0))) ∧
    ((startId ∉ g.nodeIds ∨ endId ∉ g.nodeIds) →
      shortestPath g startId endId =
        Except.error "Path can only be calculated between two nodes in the network.") := by
  constructor
  · intro hs ht
    obtain ⟨sn, hsn⟩ := Option.isSome_iff_exists.mp ((h_wf.mem_iff_lookup startId).mp hs)
    obtain ⟨en, hen⟩ := Option.isSome_iff_exists.mp ((h_wf.mem_iff_lookup endId).mp ht)
    have hsid : sn.id = startId := h_wf.lookup_id _ _ hsn
    have heid : en.id = endId := h_wf.lookup_id _ _ hen
    have hsp : shortestPath g startId endId =
        breadthFirstSearch g.edges [(startId, 0)] endId [] := by
      rw [shortestPath, hsn, hen]
      show breadthFirstSearch g.edges [(sn.id, 0)] en.id [] =
        breadthFirstSearch g.edges [(startId, 0)] endId []
      rw [hsid, heid]
    by_cases hse : startId = endId
    · have hbfs : breadthFirstSearch g.edges [(startId, 0)] endId [] = Except.ok 0 := by
        rw [breadthFirstSearch.eq_def]
        simp [hse]
      have h0 : IsDist g.edges startId endId 0 :=
        ⟨hse ▸ WalkLen.refl startId, by omega⟩
      refine ⟨?_, ?_, fun _ => by rw [hsp, hbfs]⟩
      · intro d
        constructor
        · intro hok
          rw [hsp, hbfs] at hok
          have : 0 = d := by simpa using hok
          rwa [← this]
        · intro hdist
          rw [hsp, hbfs, IsDist.unique hdist h0]
      · constructor
        · intro herr
          rw [hsp, hbfs] at herr
          simp at herr
        · intro hnreach
          exact absurd ⟨0, h0.1⟩ hnreach
    · have hts : endId ≠ startId := fun h => hse h.symm
      have hspec := bfs_spec g.edges startId endId hts
        (bfsMeasure g.edges [(startId, 0)] []) [] [(startId, 0)] [] rfl
        (bfsInv_init g.edges startId endId)
      have htot := bfs_total g.edges endId
        (bfsMeasure g.edges [(startId, 0)] []) [(startId, 0)] [] rfl
      refine ⟨?_, ?_, fun h => absurd h hse⟩
      · intro d
        constructor
        · intro hok
          rw [hsp] at hok
          exact hspec.1 d hok
        · intro hdist
          rcases htot with ⟨d2, hok2⟩ | herr
          · have hd2 := hspec.1 d2 hok2
            rw [hsp, hok2, IsDist.unique hdist hd2]
          · exact absurd ⟨d, hdist.1⟩ (hspec.2 _ herr)
      · constructor
        · intro herr
          rw [hsp] at herr
          exact hspec.2 _ herr
        · intro hnreach
          rcases htot with ⟨d2, hok2⟩ | herr
          · exact absurd ⟨d2, (hspec.1 d2 hok2).1⟩ hnreach
          · rw [hsp]
            exact herr
  · intro habs
    rw [shortestPath]
    rcases habs with h | h
    · have hnone : g.nodeDictionary.lookup startId = none := by
        cases hlk : g.nodeDictionary.lookup startId with
        | none => rfl
        | some n =>
          exact absurd ((h_wf.mem_iff_lookup startId).mpr (by rw [hlk]; rfl)) h
      rw [hnone]
    · have hnone : g.nodeDictionary.lookup endId = none := by
        cases hlk : g.nodeDictionary.lookup endId with
        | none => rfl
        | some n =>
          exact absurd ((h_wf.mem_iff_lookup endId).mpr (by rw [hlk]; rfl)) h
      rw [hnone]
      cases g.nodeDictionary.lookup startId <;> rfl

/-- Witness for C5 at a concrete store: `sampleGraphAB` is well-formed and
the characterisation applies to the pair of stored ids `a` and `b`. -/
theorem shortestPath_spec_witness :
    sampleGraphAB.WFb = true ∧
    (("a" ∈ sampleGraphAB.nodeIds → "b" ∈ sampleGraphAB.nodeIds →
      ((∀ d, shortestPath sampleGraphAB "a" "b" = Except.ok d ↔
          IsDist sampleGraphAB.edges "a" "b" d) ∧
       (shortestPath sampleGraphAB "a" "b" = Except.error "Path not found." ↔
          ¬ ∃ n, WalkLen sampleGraphAB.edges n "a" "b") ∧
       ("a" = "b" → shortestPath sampleGraphAB "a" "b" = Except.ok 0))) ∧
    (("a" ∉ sampleGraphAB.nodeIds ∨ "b" ∉ sampleGraphAB.nodeIds) →
      shortestPath sampleGraphAB "a" "b" =
        Except.error "Path can only be calculated between two nodes in the network.")) :=
  ⟨by decide,
   shortestPath_spec sampleGraphAB (WF_of_WFb sampleGraphAB (by decide)) "a" "b"⟩

/-! Layout engine: Fruchterman-Reingold.

JavaScript numbers are modelled by `JsNum`: a real value, `NaN`, or a
signed infinity.  Arithmetic follows the IEEE rules the source relies on
(`NaN` propagates through arithmetic and through `Math.min`/`Math.max`;
`0 / 0` is `NaN`; a nonzero value divided by zero gives a signed infinity;
a comparison against `NaN` is false), with real arithmetic standing in for
exact float arithmetic.  `Math.sqrt` is `Real.sqrt` on nonnegative reals,
`NaN` on negative ones and on `NaN`. -/

open scoped Classical

/-- A JavaScript number: a finite value, `NaN`, `Infinity` or
`-Infinity`. -/
inductive JsNum where
  | num (x : ℝ)
  | nan
  | inf
  | ninf

namespace JsNum

/-- IEEE addition. -/
noncomputable def add (a b : JsNum) : JsNum :=
  match a with
  | nan => nan
  | inf =>
    match b with
    | nan => nan
    | ninf => nan
    | _ => inf
  | ninf =>
    match b with
    | nan => nan
    | inf => nan
    | _ => ninf
  | num x =>
    match b with
    | nan => nan
    | inf => inf
    | ninf => ninf
    | num y => num (x + y)

/-- IEEE subtraction. -/
noncomputable def sub (a b : JsNum) : JsNum :=
  match a with
  | nan => nan
  | inf =>
    match b with
    | nan => nan
    | inf => nan
    | _ => inf
  | ninf =>
    match b with
    | nan => nan
    | ninf => nan
    | _ => ninf
  | num x =>
    match b with
    | nan => nan
    | inf => ninf
    | ninf => inf
    | num y => num (x - y)

/-- IEEE multiplication: infinity times zero is `NaN`. -/
noncomputable def mul (a b : JsNum) : JsNum :=
  match a with
  | nan => nan
  | inf =>
    match b with
    | nan => nan
    | inf => inf
    | ninf => ninf
    | num y => if y = 0 then nan else if 0 < y then inf else ninf
  | ninf =>
    match b with
    | nan => nan
    | inf => ninf
    | ninf => inf
    | num y => if y = 0 then nan else if 0 < y then ninf else inf
  | num x =>
    match b with
    | nan => nan
    | inf => if x = 0 then nan else if 0 < x then inf else ninf
    | ninf => if x = 0 then nan else if 0 < x then ninf else inf
    | num y => num (x * y)

/-- IEEE division: `0 / 0` is `NaN`, nonzero over zero is a signed
infinity (the model has no negative zero, so the zero divisor counts as
positive), infinity over infinity is `NaN`, finite over infinity is 0. -/
noncomputable def div (a b : JsNum) : JsNum :=
  match a with
  | nan => nan
  | inf =>
    match b with
    | nan => nan
    | inf => nan
    | ninf => nan
    | num y => if 0 ≤ y then inf else ninf
  | ninf =>
    match b with
    | nan => nan
    | inf => nan
    | ninf => nan
    | num y => if 0 ≤ y then ninf else inf
  | num x =>
    match b with
    | nan => nan
    | inf => num 0
    | ninf => num 0
    | num y =>
      if y = 0 then (if x = 0 then nan else if 0 < x then inf else ninf)
      else num (x / y)

/-- `Math.sqrt`. -/
noncomputable def sqrt (a : JsNum) : JsNum :=
  match a with
  | nan => nan
  | inf => inf
  | ninf => nan
  | num x => if x < 0 then nan else num (Real.sqrt x)

/-- `Math.abs`. -/
noncomputable def abs (a : JsNum) : JsNum :=
  match a with
  | nan => nan
  | inf => inf
  | ninf => inf
  | num x => num |x|

/-- `Math.min`: `NaN` if either argument is `NaN`. -/
noncomputable def min (a b : JsNum) : JsNum :=
  match a with
  | nan => nan
  | inf =>
    match b with
    | nan => nan
    | _ => b
  | ninf =>
    match b with
    | nan => nan
    | _ => ninf
  | num x =>
    match b with
    | nan => nan
    | inf => num x
    | ninf => ninf
    | num y => num (Min.min x y)

/-- `Math.max`: `NaN` if either argument is `NaN`. -/
noncomputable def max (a b : JsNum) : JsNum :=
  match a with
  | nan => nan
  | inf =>
    match b with
    | nan => nan
    | _ => inf
  | ninf =>
    match b with
    | nan => nan
    | _ => b
  | num x =>
    match b with
    | nan => nan
    | inf => inf
    | ninf => num x
    | num y => num (Max.max x y)

/-- The JavaScript `<` comparison: false whenever either side is `NaN`. -/
def lt (a b : JsNum) : Prop :=
  match a, b with
  | num x, num y => x < y
  | num _, inf => True
  | ninf, num _ => True
  | ninf, inf => True
  | _, _ => False

end JsNum

open JsNum

/-- Embeds the helper `fa`: the attractive force magnitude
`z ^ 2 / k * c`. -/
noncomputable def fa (z k c : JsNum) : JsNum := mul (div (mul z z) k) c

/-- Embeds the helper `fr`: the repulsive force magnitude
`k ^ 2 / z * c`. -/
noncomputable def fr (z k c : JsNum) : JsNum := mul (div (mul k k) z) c

/-- Embeds the helper `dist`: the euclidean norm of a vector. -/
noncomputable def dist (vx vy : JsNum) : JsNum :=
  sqrt (add (mul vx vx) (mul vy vy))

/-- Embeds the helper `deltaF`: the coordinate difference with a
minimum-magnitude floor of `0.0001` preserving sign (a `NaN` difference
fails the `< 0` test and `Math.max` then propagates the `NaN`). -/
noncomputable def deltaF (a b : JsNum) : JsNum :=
  if lt (sub a b) (num 0) then min (sub a b) (num (-0.0001))
  else max (sub a b) (num 0.0001)

/-- A node as the layout engine sees it: position and displacement. -/
structure FRNode where
  id : String
  x : JsNum
  y : JsNum
  dispx : JsNum
  dispy : JsNum

/-- The repulsion stage of one pass: reset each displacement to zero, then
for every ordered pair of distinct nodes accumulate the repulsive term
onto the displacement of the first.  Node objects are distinct exactly
when their ids differ, and only the displacement of the outer node is
written while only positions are read, so the sequential in-place loop of
the source is a map. -/
noncomputable def repulse (k c2 : JsNum) (nodes : List FRNode) : List FRNode :=
  nodes.map (fun node =>
    let d := nodes.foldl (fun (acc : JsNum × JsNum) other =>
      if node.id = other.id then acc
      else
        (add acc.1 (mul (div (deltaF node.x other.x)
            (dist (deltaF node.x other.x) (deltaF node.y other.y)))
          (fr (dist (deltaF node.x other.x) (deltaF node.y other.y)) k c2)),
         add acc.2 (mul (div (deltaF node.y other.y)
            (dist (deltaF node.x other.x) (deltaF node.y other.y)))
          (fr (dist (deltaF node.x other.x) (deltaF node.y other.y)) k c2))))
      (num 0, num 0)
    { node with dispx := d.1, dispy := d.2 })

/-- Update a node with a given id in place. -/
noncomputable def updateNode (nodes : List FRNode) (id : String)
    (f : FRNode → FRNode) : List FRNode :=
  nodes.map (fun nd => if nd.id = id then f nd else nd)

/-- The attraction stage of one pass: for every edge, compute the clamped
delta between the endpoint positions once, then subtract the attractive
term from the displacement of the source and add it to the displacement of
the target.  The source mutates the two node objects the edge references;
with unique ids this is an update-by-id.  An edge whose endpoint is
missing from the node list cannot arise from a well-formed store and
leaves the list unchanged. -/
noncomputable def attract (k c1 : JsNum) (edges : List (String × String))
    (nodes : List FRNode) : List FRNode :=
  edges.foldl (fun ns e =>
    match ns.find? (fun nd => nd.id == e.1), ns.find? (fun nd => nd.id == e.2) with
    | some s, some t =>
      let dx := deltaF s.x t.x
      let dy := deltaF s.y t.y
      let dd := dist dx dy
      updateNode
        (updateNode ns e.1 (fun nd =>
          { nd with
              dispx := sub nd.dispx (mul (div dx dd) (fa dd k c1))
              dispy := sub nd.dispy (mul (div dy dd) (fa dd k c1)) }))
        e.2 (fun nd =>
          { nd with
              dispx := add nd.dispx (mul (div dx dd) (fa dd k c1))
              dispy := add nd.dispy (mul (div dy dd) (fa dd k c1)) })
    | _, _ => ns) nodes

/-- The horizontal clamp of the static solver:
`Math.min(width - 10, Math.max(10, tempX))`. -/
noncomputable def clampStaticX (width v : JsNum) : JsNum :=
  min (sub width (num 10)) (max (num 10) v)

/-- The vertical clamp of the static solver:
`Math.min(height - 10, Math.max(20, tempY))`. -/
noncomputable def clampStaticY (height v : JsNum) : JsNum :=
  min (sub height (num 10)) (max (num 20) v)

/-- The horizontal clamp of the animated solver:
`Math.min(width - 20, Math.max(20, tempX))`. -/
noncomputable def clampAnimX (width v : JsNum) : JsNum :=
  min (sub width (num 20)) (max (num 20) v)

/-- The vertical clamp of the animated solver:
`Math.min(height - 20, Math.max(20, tempY))`. -/
noncomputable def clampAnimY (height v : JsNum) : JsNum :=
  min (sub height (num 20)) (max (num 20) v)

/-- The position-update stage of the static solver: move each node along
its displacement with per-axis step `min(|disp|, t)` in the direction
`disp / ‖disp‖`, then clamp with the static bounds. -/
noncomputable def updatePosStatic (width height t : JsNum)
    (nodes : List FRNode) : List FRNode :=
  nodes.map (fun node =>
    { node with
        x := clampStaticX width (add node.x
          (mul (div node.dispx (dist node.dispx node.dispy))
            (min (abs node.dispx) t)))
        y := clampStaticY height (add node.y
          (mul (div node.dispy (dist node.dispx node.dispy))
            (min (abs node.dispy) t))) })

/-- The position-update stage of the animated solver: identical except for
the clamp bounds. -/
noncomputable def updatePosAnim (width height t : JsNum)
    (nodes : List FRNode) : List FRNode :=
  nodes.map (fun node =>
    { node with
        x := clampAnimX width (add node.x
          (mul (div node.dispx (dist node.dispx node.dispy))
            (min (abs node.dispx) t)))
        y := clampAnimY height (add node.y
          (mul (div node.dispy (dist node.dispx node.dispy))
            (min (abs node.dispy) t))) })

/-- One pass of the static solver: repulsion, attraction, position
update. -/
noncomputable def staticPass (width height attraction repulsion k : JsNum)
    (edges : List (String × String)) (nodes : List FRNode) (t : JsNum) :
    List FRNode :=
  updatePosStatic width height t (attract k attraction edges (repulse k repulsion nodes))

/-- One pass of the animated solver: the same stages with the animated
clamp bounds. -/
noncomputable def animPass (width height attraction repulsion k : JsNum)
    (edges : List (String × String)) (nodes : List FRNode) (t : JsNum) :
    List FRNode :=
  updatePosAnim width height t (attract k attraction edges (repulse k repulsion nodes))

/-- The iteration structure of `for (let i = 1; i < 80; i++)` with the
cooling update `t = t - 10 / i` after each pass; the second component
counts the passes performed. -/
noncomputable def frLoop (step : List FRNode → JsNum → List FRNode) :
    ℕ → JsNum → List FRNode → List FRNode × ℕ
  | i, t, s =>
    if i < 80 then
      ((frLoop step (i + 1) (sub t (div (num 10) (num i))) (step s t)).1,
       (frLoop step (i + 1) (sub t (div (num 10) (num i))) (step s t)).2 + 1)
    else (s, 0)
termination_by i _ _ => 80 - i
decreasing_by omega

/-- Embeds `Graph.fruchtermanReingold`: compute the ideal edge length `k`
once, then run the loop from `i = 1` at initial temperature 50.  The
result pairs the final node states with the number of passes executed. -/
noncomputable def fruchtermanReingold (nodes : List FRNode)
    (edges : List (String × String)) (width height attraction repulsion : JsNum) :
    List FRNode × ℕ :=
  frLoop (staticPass width height attraction repulsion
      (sqrt (div (mul width height) (num (nodes.length : ℝ)))) edges)
    1 (num 50) nodes

/-- The loop of the animated solver, with the cooperative stop flag
modelled as an oracle consulted at the top of pass `i`; a pass that runs
applies `animPass` and then cools exactly as the static loop does. -/
noncomputable def frLoopAnim (step : List FRNode → JsNum → List FRNode)
    (stop : ℕ → Bool) : ℕ → JsNum → List FRNode → List FRNode × ℕ
  | i, t, s =>
    if i < 80 then
      if stop i then (s, 0)
      else
        ((frLoopAnim step stop (i + 1) (sub t (div (num 10) (num i))) (step s t)).1,
         (frLoopAnim step stop (i + 1) (sub t (div (num 10) (num i))) (step s t)).2 + 1)
    else (s, 0)
termination_by i _ _ => 80 - i
decreasing_by omega

/-- Embeds `Graph.fruchtermanReingoldAnimate`: the same loop built from
`animPass`, stopping early when the `playing` flag has been cleared. -/
noncomputable def fruchtermanReingoldAnimate (nodes : List FRNode)
    (edges : List (String × String)) (width height attraction repulsion : JsNum)
    (stop : ℕ → Bool) : List FRNode × ℕ :=
  frLoopAnim (animPass width height attraction repulsion
      (sqrt (div (mul width height) (num (nodes.length : ℝ)))) edges)
    stop 1 (num 50) nodes

/-! Loop iteration count. -/

lemma frLoop_count (step : List FRNode → JsNum → List FRNode) :
    ∀ (m i : ℕ), 80 - i = m → ∀ (t : JsNum) (s : List FRNode),
      (frLoop step i t s).2 = 80 - i := by
  intro m
  induction m using Nat.strong_induction_on with
  | _ m ih =>
    intro i him t s
    rw [frLoop]
    by_cases h : i < 80
    · simp only [if_pos h]
      rw [ih (80 - (i + 1)) (by omega) (i + 1) rfl
        (sub t (div (num 10) (num i))) (step s t)]
      omega
    · simp only [if_neg h]
      omega

/-! C1: the static solver performs 79 passes, not 80. -/

/-- Counterexample to C1 as stated: on a concrete one-node graph the
static solver executes 79 passes, not 80, because the loop
`for (let i = 1; i < 80; i++)` runs for `i = 1, ..., 79`. -/
theorem fruchtermanReingold_pass_count_counterexample :
    (fruchtermanReingold [⟨"a", num 50, num 50, num 0, num 0⟩] []
        (num 100) (num 100) (num 1) (num 1)).2 = 79 ∧ (79 : ℕ) ≠ 80 := by
  constructor
  · rw [fruchtermanReingold]
    simpa using frLoop_count _ 79 1 rfl (num 50) _
  · norm_num

/-- C1 amended: the static layout solver, run on any graph, performs
exactly 79 simulation passes (repulsion, attraction, position update,
cooling) and then returns: the loop runs `i` from 1 while `i < 80`. -/
theorem fruchtermanReingold_pass_count (nodes : List FRNode)
    (edges : List (String × String)) (w h a r : JsNum) :
    (fruchtermanReingold nodes edges w h a r).2 = 79 := by
  rw [fruchtermanReingold]
  simpa using frLoop_count _ 79 1 rfl (num 50) nodes

/-! C2: a single-node graph degenerates to NaN coordinates. -/

lemma min_nan (a : JsNum) : min a nan = nan := by cases a <;> rfl

lemma max_nan (a : JsNum) : max a nan = nan := by cases a <;> rfl

lemma add_nan (a : JsNum) : add a nan = nan := by cases a <;> rfl

lemma dist_zero_zero : dist (num 0) (num 0) = num 0 := by
  rw [dist]
  norm_num [JsNum.mul, JsNum.add, JsNum.sqrt, Real.sqrt_zero]

lemma div_zero_zero : div (num 0) (num 0) = nan := by
  norm_num [JsNum.div]

lemma temp_zero_disp_nan (x t : JsNum) :
    add x (mul (div (num 0) (dist (num 0) (num 0))) (min (abs (num 0)) t)) = nan := by
  rw [dist_zero_zero, div_zero_zero]
  rw [show mul nan (min (abs (num 0)) t) = nan from rfl]
  exact add_nan x

lemma clampStaticX_nan (w : JsNum) : clampStaticX w nan = nan := by
  rw [clampStaticX, max_nan, min_nan]

lemma clampStaticY_nan (h : JsNum) : clampStaticY h nan = nan := by
  rw [clampStaticY, max_nan, min_nan]

lemma repulse_singleton (k c2 : JsNum) (nd : FRNode) :
    repulse k c2 [nd] = [{ nd with dispx := num 0, dispy := num 0 }] := by
  simp [repulse]

lemma staticPass_singleton (w h a r k t : JsNum) (id : String) (x y dx dy : JsNum) :
    staticPass w h a r k [] [⟨id, x, y, dx, dy⟩] t = [⟨id, nan, nan, num 0, num 0⟩] := by
  rw [staticPass]
  rw [show attract k a [] (repulse k r [⟨id, x, y, dx, dy⟩]) =
      repulse k r [⟨id, x, y, dx, dy⟩] from rfl]
  rw [repulse_singleton]
  rw [updatePosStatic]
  simp only [List.map_cons, List.map_nil]
  rw [temp_zero_disp_nan, temp_zero_disp_nan, clampStaticX_nan, clampStaticY_nan]

lemma frLoop_const (step : List FRNode → JsNum → List FRNode) (sfix : List FRNode)
    (hfix : ∀ t, step sfix t = sfix) :
    ∀ (m i : ℕ), 80 - i = m → ∀ t, (frLoop step i t sfix).1 = sfix := by
  intro m
  induction m using Nat.strong_induction_on with
  | _ m ih =>
    intro i him t
    rw [frLoop]
    by_cases h : i < 80
    · simp only [if_pos h]
      rw [hfix t]
      exact ih (80 - (i + 1)) (by omega) (i + 1) rfl _
    · simp only [if_neg h]

lemma frLoop_from_start (step : List FRNode → JsNum → List FRNode)
    (s0 sfix : List FRNode) (h0 : ∀ t, step s0 t = sfix)
    (hfix : ∀ t, step sfix t = sfix) (i : ℕ) (hi : i < 80) (t : JsNum) :
    (frLoop step i t s0).1 = sfix := by
  rw [frLoop]
  simp only [if_pos hi]
  rw [h0 t]
  exact frLoop_const step sfix hfix (80 - (i + 1)) (i + 1) rfl _

/-- C2, evaluation at the failing input: on a graph with a single node at
(50, 50) on a 100 by 100 canvas, with any attraction and repulsion
constants, the static solver returns the node with both coordinates `NaN`:
the lone node accumulates zero displacement, the position update divides
`0 / 0` into `NaN`, and the clamps propagate it.  No `NaN` value lies in
the claimed interval, since `NaN` is distinct from every finite value. -/
theorem fruchtermanReingold_single_node_nan (a r : JsNum) :
    (fruchtermanReingold [⟨"a", num 50, num 50, num 0, num 0⟩] []
        (num 100) (num 100) a r).1 = [⟨"a", nan, nan, num 0, num 0⟩] ∧
    ∀ v : ℝ, (nan : JsNum) ≠ num v := by
  constructor
  · rw [fruchtermanReingold]
    exact frLoop_from_start _ _ _
      (fun t => staticPass_singleton _ _ _ _ _ t "a" _ _ _ _)
      (fun t => staticPass_singleton _ _ _ _ _ t "a" _ _ _ _)
      1 (by norm_num) _
  · intro v h
    exact JsNum.noConfusion h

/-! C9: the animated solver clamps into [20, width-20] x [20, height-20]. -/

lemma clampAnimX_bounds (wv : ℝ) (hw : 40 ≤ wv) (v : JsNum) :
    clampAnimX (num wv) v = nan ∨
    ∃ z : ℝ, clampAnimX (num wv) v = num z ∧ 20 ≤ z ∧ z ≤ wv - 20 := by
  rw [clampAnimX]
  cases v with
  | nan => exact Or.inl (by rw [max_nan, min_nan])
  | inf =>
    refine Or.inr ⟨wv - 20, ?_, by linarith, le_refl _⟩
    rfl
  | ninf =>
    refine Or.inr ⟨20, ?_, le_refl _, by linarith⟩
    show min (num (wv - 20)) (num 20) = num 20
    rw [show min (num (wv - 20)) (num 20) = num (Min.min (wv - 20) 20) from rfl]
    rw [min_eq_right (by linarith)]
  | num z =>
    refine Or.inr ⟨Min.min (wv - 20) (Max.max 20 z), rfl, ?_, min_le_left _ _⟩
    exact le_min (by linarith) (le_max_left _ _)

/-- C9: in the animated solver, every node position produced by a pass has
been clamped per axis into [20, width-20] and [20, height-20] (a NaN
position passes through the clamp unchanged, exactly as `Math.min` and
`Math.max` propagate NaN); and these clamp bounds differ from the static
solver bounds [10, width-10] x [20, height-10] in the horizontal bounds
and in the vertical upper bound, while the vertical lower bound (20) is
the one bound the two solvers share. -/
theorem animPass_clamps_and_differs (wv hv : ℝ) (hw : 40 ≤ wv) (hh : 40 ≤ hv)
    (a r k t : JsNum) (nodes : List FRNode) (edges : List (String × String)) :
    (∀ nd ∈ animPass (num wv) (num hv) a r k edges nodes t,
      (nd.x = nan ∨ ∃ z : ℝ, nd.x = num z ∧ 20 ≤ z ∧ z ≤ wv - 20) ∧
      (nd.y = nan ∨ ∃ z : ℝ, nd.y = num z ∧ 20 ≤ z ∧ z ≤ hv - 20)) ∧
    clampAnimX (num wv) (num 0) = num 20 ∧
    clampStaticX (num wv) (num 0) = num 10 ∧
    clampAnimY (num hv) (num (hv - 15)) = num (hv - 20) ∧
    clampStaticY (num hv) (num (hv - 15)) = num (hv - 15) ∧
    clampAnimY (num hv) (num 0) = num 20 ∧
    clampStaticY (num hv) (num 0) = num 20 ∧
    (num 20 : JsNum) ≠ num 10 ∧
    (num (hv - 20) : JsNum) ≠ num (hv - 15) := by
  refine ⟨?_, ?_, ?_, ?_, ?_, ?_, ?_, ?_, ?_⟩
  · intro nd hmem
    rw [animPass, updatePosAnim] at hmem
    obtain ⟨m, _, rfl⟩ := List.mem_map.mp hmem
    constructor
    · exact clampAnimX_bounds wv hw _
    · have hYX : ∀ v : JsNum, clampAnimY (num hv) v = clampAnimX (num hv) v := fun v => rfl
      rw [hYX]
      exact clampAnimX_bounds hv hh _
  · rw [clampAnimX]
    rw [show max (num 20) (num 0) = num (Max.max 20 0) from rfl]
    rw [show (Max.max (20 : ℝ) 0) = 20 from max_eq_left (by norm_num)]
    rw [show min (sub (num wv) (num 20)) (num 20) = num (Min.min (wv - 20) 20) from rfl]
    rw [min_eq_right (by linarith)]
  · rw [clampStaticX]
    rw [show max (num 10) (num 0) = num (Max.max 10 0) from rfl]
    rw [show (Max.max (10 : ℝ) 0) = 10 from max_eq_left (by norm_num)]
    rw [show min (sub (num wv) (num 10)) (num 10) = num (Min.min (wv - 10) 10) from rfl]
    rw [min_eq_right (by linarith)]
  · rw [clampAnimY]
    rw [show max (num 20) (num (hv - 15)) = num (Max.max 20 (hv - 15)) from rfl]
    rw [show (Max.max (20 : ℝ) (hv - 15)) = hv - 15 from max_eq_right (by linarith)]
    rw [show min (sub (num hv) (num 20)) (num (hv - 15)) =
        num (Min.min (hv - 20) (hv - 15)) from rfl]
    rw [min_eq_left (by linarith)]
  · rw [clampStaticY]
    rw [show max (num 20) (num (hv - 15)) = num (Max.max 20 (hv - 15)) from rfl]
    rw [show (Max.max (20 : ℝ) (hv - 15)) = hv - 15 from max_eq_right (by linarith)]
    rw [show min (sub (num hv) (num 10)) (num (hv - 15)) =
        num (Min.min (hv - 10) (hv - 15)) from rfl]
    rw [min_eq_right (by linarith)]
  · rw [clampAnimY]
    rw [show max (num 20) (num 0) = num (Max.max 20 0) from rfl]
    rw [show (Max.max (20 : ℝ) 0) = 20 from max_eq_left (by norm_num)]
    rw [show min (sub (num hv) (num 20)) (num 20) = num (Min.min (hv - 20) 20) from rfl]
    rw [min_eq_right (by linarith)]
  · rw [clampStaticY]
    rw [show max (num 20) (num 0) = num (Max.max 20 0) from rfl]
    rw [show (Max.max (20 : ℝ) 0) = 20 from max_eq_left (by norm_num)]
    rw [show min (sub (num hv) (num 10)) (num 20) = num (Min.min (hv - 10) 20) from rfl]
    rw [min_eq_right (by linarith)]
  · intro hcontra
    have : (20 : ℝ) = 10 := JsNum.num.inj hcontra
    linarith
  · intro hcontra
    have : hv - 20 = hv - 15 := JsNum.num.inj hcontra
    linarith

/-- Witness for C9 at a concrete input: canvas 100 by 100, unit constants
and temperature, one node at (50, 50). -/
theorem animPass_clamps_and_differs_witness :
    (40 ≤ (100 : ℝ)) ∧
    ((∀ nd ∈ animPass (num 100) (num 100) (num 1) (num 1) (num 1) []
        [⟨"a", num 50, num 50, num 0, num 0⟩] (num 1),
      (nd.x = nan ∨ ∃ z : ℝ, nd.x = num z ∧ 20 ≤ z ∧ z ≤ 100 - 20) ∧
      (nd.y = nan ∨ ∃ z : ℝ, nd.y = num z ∧ 20 ≤ z ∧ z ≤ 100 - 20)) ∧
    clampAnimX (num 100) (num 0) = num 20 ∧
    clampStaticX (num 100) (num 0) = num 10 ∧
    clampAnimY (num 100) (num (100 - 15)) = num (100 - 20) ∧
    clampStaticY (num 100) (num (100 - 15)) = num (100 - 15) ∧
    clampAnimY (num 100) (num 0) = num 20 ∧
    clampStaticY (num 100) (num 0) = num 20 ∧
    (num 20 : JsNum) ≠ num 10 ∧
    (num ((100 : ℝ) - 20) : JsNum) ≠ num (100 - 15)) :=
  ⟨by norm_num,
   animPass_clamps_and_differs 100 100 (by norm_num) (by norm_num)
     (num 1) (num 1) (num 1) (num 1) [⟨"a", num 50, num 50, num 0, num 0⟩] []⟩

end NetworkGraph
